import Mathlib

/-!
# InkTranslator — verification of the core pipeline against its specification

Shallow embedding of the algorithmic core of the InkTranslator backend
(`backend/src`): the text-box merge utility (`services/ocr/base.py`), the
reading-order sort, marker packing/unpacking and failure handling of the
orchestrator (`services/orchestrator.py`), the multi-provider translation
fallback engine (`services/translate/translation_manager.py`,
`services/translate/base.py`), and the font/layout engine
(`services/render/font_manager.py`, `services/render/layout_calculator.py`).

External collaborators (PIL font metrics, network translation providers,
OCR engines, images) are modeled as explicit oracle parameters; everything
the repository itself computes is embedded from the source.  Python machine
integers are unbounded, so `Int`/`Nat` model them directly; the few places
where the source compares through IEEE floats (`** 0.5 <= threshold`,
`len * 0.3`, `* 0.4`) are embedded as the equivalent exact integer
comparisons, justified in the corresponding doc comments.
-/

namespace InkTranslator

/-- `BoundingBox` from `models/schemas.py`: integer rectangle `(x1, y1, x2, y2)`. -/
structure BoundingBox where
  x1 : Int
  y1 : Int
  x2 : Int
  y2 : Int
deriving DecidableEq, Repr

/-- `BoundingBox.width` property: `x2 - x1`. -/
def BoundingBox.width (b : BoundingBox) : Int := b.x2 - b.x1

/-- `BoundingBox.height` property: `y2 - y1`. -/
def BoundingBox.height (b : BoundingBox) : Int := b.y2 - b.y1

/-- `TextBox` from `models/schemas.py`.  The pydantic model declares `text`,
`bbox` and `translated_text` (default `""`).  The `confidence` and `language`
fields are commented out in the source model; `language` is nevertheless probed
dynamically by the orchestrator via `hasattr(text_box, 'language')`, so it is
modeled here as an optional attribute (`none` = attribute absent, which is the
case for every box the pipeline constructs). -/
structure TextBox where
  text : String
  bbox : BoundingBox
  translated_text : String := ""
  language : Option String := none
deriving DecidableEq, Repr

/-! ## Layout calculator: overlap resolution (`services/render/layout_calculator.py`) -/

/-- `LayoutCalculator._boxes_overlap`. -/
def boxesOverlap (b1 b2 : BoundingBox) : Bool :=
  !(b1.x2 < b2.x1 || b2.x2 < b1.x1 || b1.y2 < b2.y1 || b2.y2 < b1.y1)

/-- One candidate translation of `bbox1` by `(dx, dy)`, as computed inside the
loop of `LayoutCalculator._resolve_overlap`. -/
def moveBox (b : BoundingBox) (m : Int × Int) : BoundingBox :=
  ⟨b.x1 + m.1, b.y1 + m.2, b.x2 + m.1, b.y2 + m.2⟩

/-- The in-bounds test of `_resolve_overlap`:
`0 <= new_x1 and new_x2 <= image_width and 0 <= new_y1 and new_y2 <= image_height`. -/
def boxInBounds (b : BoundingBox) (imageWidth imageHeight : Int) : Bool :=
  0 ≤ b.x1 && b.x2 ≤ imageWidth && 0 ≤ b.y1 && b.y2 ≤ imageHeight

/-- The `for dx, dy in movements` loop of `_resolve_overlap`: return the first
translated box that stays within the image, else fall through. -/
def tryMovements (bbox1 : BoundingBox) (imageWidth imageHeight : Int) :
    List (Int × Int) → BoundingBox
  | [] => bbox1
  | m :: rest =>
      let moved := moveBox bbox1 m
      if boxInBounds moved imageWidth imageHeight then moved
      else tryMovements bbox1 imageWidth imageHeight rest

/-- `LayoutCalculator._resolve_overlap` from `services/render/layout_calculator.py`. -/
def resolveOverlap (bbox1 bbox2 : BoundingBox) (imageWidth imageHeight : Int) :
    BoundingBox :=
  tryMovements bbox1 imageWidth imageHeight
    [ (0, bbox2.y2 - bbox1.y1 + 5),
      (0, bbox2.y1 - bbox1.y2 - 5),
      (bbox2.x2 - bbox1.x1 + 5, 0),
      (bbox2.x1 - bbox1.x2 - 5, 0) ]

/-- The body of the inner `for existing_box in optimized_boxes` loop of
`LayoutCalculator.optimize_text_layout`. -/
def adjustAgainst (imageWidth imageHeight : Int) (adjusted existing : TextBox) :
    TextBox :=
  if boxesOverlap adjusted.bbox existing.bbox then
    { adjusted with bbox := resolveOverlap adjusted.bbox existing.bbox imageWidth imageHeight }
  else adjusted

/-- The outer loop of `optimize_text_layout`: each box (a copy) is adjusted
against every already-placed box, then appended. -/
def optimizeGo (imageWidth imageHeight : Int) (optimized : List TextBox) :
    List TextBox → List TextBox
  | [] => optimized
  | b :: rest =>
      let adjusted := optimized.foldl (adjustAgainst imageWidth imageHeight) b
      optimizeGo imageWidth imageHeight (optimized ++ [adjusted]) rest

/-- `LayoutCalculator.optimize_text_layout` from `services/render/layout_calculator.py`. -/
def optimizeTextLayout (textBoxes : List TextBox) (imageWidth imageHeight : Int) :
    List TextBox :=
  if textBoxes.length ≤ 1 then textBoxes
  else optimizeGo imageWidth imageHeight [] textBoxes

/-! ## Font manager: CJK character wrapping (`services/render/font_manager.py`) -/

/-- The character loop of `FontManager._wrap_cjk_text`, over the remaining
characters and the accumulated `current_line`.  The width measurement
(`measure_text` through a PIL font) is an oracle parameter `measure`. -/
def wrapCjkGo (measure : List Char → Int) (targetWidth : Int) :
    List Char → List Char → List (List Char)
  | [], current => if current ≠ [] then [current] else []
  | c :: rest, current =>
      let testLine := current ++ [c]
      if measure testLine ≤ targetWidth then
        wrapCjkGo measure targetWidth rest testLine
      else if current ≠ [] then
        current :: wrapCjkGo measure targetWidth rest [c]
      else
        wrapCjkGo measure targetWidth rest [c]

/-- `FontManager._wrap_cjk_text` from `services/render/font_manager.py`,
character-by-character greedy wrapping (lines as character lists). -/
def wrapCjkText (measure : List Char → Int) (text : List Char) (targetWidth : Int) :
    List (List Char) :=
  wrapCjkGo measure targetWidth text []

/-! ## OCR text-box merge utility (`services/ocr/base.py`) -/

/-- The integer box center as computed in `OCRService._boxes_nearby`
(Python `//` is floor division). -/
def bboxCenter (b : BoundingBox) : Int × Int :=
  ((b.x1 + b.x2).fdiv 2, (b.y1 + b.y2).fdiv 2)

/-- `OCRService._boxes_nearby`: the source compares
`((c1x - c2x) ** 2 + (c1y - c2y) ** 2) ** 0.5 <= threshold` through floats;
for integer inputs of any realistic size this is exactly the squared comparison
`dx^2 + dy^2 <= threshold^2` together with `0 <= threshold` (the square root is
nonnegative, and IEEE rounding of the root cannot cross an integer boundary
until the coordinates approach 2^26). -/
def boxesNearby (b1 b2 : BoundingBox) (threshold : Int) : Bool :=
  let c1 := bboxCenter b1
  let c2 := bboxCenter b2
  decide (0 ≤ threshold ∧ (c1.1 - c2.1) ^ 2 + (c1.2 - c2.2) ^ 2 ≤ threshold ^ 2)

/-- `OCRService._merge_text_boxes`.  For a single box the source returns it
unchanged.  For several boxes it evaluates `sum(b.confidence for b in boxes)`
and `boxes[0].language`, but `confidence` and `language` are commented out of
the `TextBox` pydantic model in `models/schemas.py`, so the attribute access
raises `AttributeError`; for an empty group `min()` over an empty generator
would raise `ValueError`.  Both raises are modeled as `Except.error`. -/
def mergeTextBoxes : List TextBox → Except String TextBox
  | [b] => .ok b
  | [] => .error "ValueError: min of empty sequence"
  | _ :: _ :: _ => .error "AttributeError: TextBox has no attribute confidence"

/-- The outer `for i, box1 in enumerate(boxes)` loop of
`OCRService._merge_nearby_boxes`, over the index-annotated remaining boxes and
the `used` index set.  `hits` is the result of the inner scan over the later
boxes: the not-yet-used boxes whose center is near `box1`'s center. -/
def mergeNearbyGo (threshold : Int) :
    List (Nat × TextBox) → List Nat → Except String (List TextBox)
  | [], _ => .ok []
  | (i, b) :: rest, used =>
      if i ∈ used then mergeNearbyGo threshold rest used
      else
        let hits := rest.filter
          (fun p => !(used.contains p.1) && boxesNearby b.bbox p.2.bbox threshold)
        if hits.isEmpty then
          match mergeNearbyGo threshold rest used with
          | .error e => .error e
          | .ok tail => .ok (b :: tail)
        else
          match mergeTextBoxes (b :: hits.map Prod.snd) with
          | .error e => .error e
          | .ok merged =>
              match mergeNearbyGo threshold rest (used ++ hits.map Prod.fst) with
              | .error e => .error e
              | .ok tail => .ok (merged :: tail)

/-- `OCRService._merge_nearby_boxes` from `services/ocr/base.py`
(default threshold 20). -/
def mergeNearbyBoxes (boxes : List TextBox) (threshold : Int) :
    Except String (List TextBox) :=
  if boxes.isEmpty then .ok boxes
  else mergeNearbyGo threshold boxes.enum []

/-! ## Theorems for claims C4 and C5 -/

theorem mergeTextBoxes_pair_error (b x : TextBox) (xs : List TextBox) :
    mergeTextBoxes (b :: x :: xs) =
      .error "AttributeError: TextBox has no attribute confidence" := rfl

/-- When `_merge_nearby_boxes` returns at all (instead of raising), it returns
its input unchanged: with an empty `used` set, any nonempty hit group reaches
the `AttributeError` of `_merge_text_boxes`. -/
theorem mergeNearbyGo_ok (threshold : Int) (l : List (Nat × TextBox))
    (out : List TextBox) (h : mergeNearbyGo threshold l [] = .ok out) :
    out = l.map Prod.snd := by
  induction l generalizing out with
  | nil => simpa [mergeNearbyGo] using h.symm
  | cons p rest ih =>
      obtain ⟨i, b⟩ := p
      simp only [mergeNearbyGo, List.not_mem_nil, if_false] at h
      by_cases hh : (rest.filter
          (fun p => !(List.contains [] p.1) && boxesNearby b.bbox p.2.bbox threshold)).isEmpty
      · rw [if_pos hh] at h
        cases htail : mergeNearbyGo threshold rest [] with
        | error e => rw [htail] at h; cases h
        | ok tail =>
            rw [htail] at h
            cases h
            simp [ih tail htail]
      · rw [if_neg hh] at h
        obtain ⟨q, qs, hq⟩ : ∃ q qs, (rest.filter
            (fun p => !(List.contains [] p.1) && boxesNearby b.bbox p.2.bbox threshold)) =
              q :: qs := by
          cases hfilter : (rest.filter
              (fun p => !(List.contains [] p.1) && boxesNearby b.bbox p.2.bbox threshold)) with
          | nil => rw [hfilter] at hh; simp at hh
          | cons q qs => exact ⟨q, qs, rfl⟩
        rw [hq] at h
        simp only [List.map_cons, mergeTextBoxes_pair_error] at h
        cases h

/-- C5: merging is idempotent — whenever `_merge_nearby_boxes` returns an
already-merged list, applying it again with the same threshold returns that
list unchanged.  (On this code a successful merge is always the identity: any
group of two or more nearby boxes raises `AttributeError` instead — see C4.) -/
theorem merge_nearby_boxes_idempotent (boxes merged : List TextBox) (threshold : Int)
    (h : mergeNearbyBoxes boxes threshold = .ok merged) :
    mergeNearbyBoxes merged threshold = .ok merged := by
  have hmerged : merged = boxes := by
    unfold mergeNearbyBoxes at h
    by_cases hb : boxes.isEmpty
    · rw [if_pos hb] at h
      cases h; rfl
    · rw [if_neg hb] at h
      have := mergeNearbyGo_ok threshold boxes.enum merged h
      simpa [List.enum_map_snd] using this
  rw [hmerged] at h ⊢
  exact h

/-- Witness for `merge_nearby_boxes_idempotent`: two far-apart boxes survive a
merge unchanged, and re-merging leaves them unchanged again. -/
theorem merge_nearby_boxes_idempotent_witness :
    mergeNearbyBoxes
        [⟨"A", ⟨0, 0, 2, 2⟩, "", none⟩, ⟨"B", ⟨100, 100, 102, 102⟩, "", none⟩] 20 =
      .ok [⟨"A", ⟨0, 0, 2, 2⟩, "", none⟩, ⟨"B", ⟨100, 100, 102, 102⟩, "", none⟩] ∧
    mergeNearbyBoxes
        [⟨"A", ⟨0, 0, 2, 2⟩, "", none⟩, ⟨"B", ⟨100, 100, 102, 102⟩, "", none⟩] 20 =
      .ok [⟨"A", ⟨0, 0, 2, 2⟩, "", none⟩, ⟨"B", ⟨100, 100, 102, 102⟩, "", none⟩] := by
  have h : mergeNearbyBoxes
      [⟨"A", ⟨0, 0, 2, 2⟩, "", none⟩, ⟨"B", ⟨100, 100, 102, 102⟩, "", none⟩] 20 =
        .ok [⟨"A", ⟨0, 0, 2, 2⟩, "", none⟩, ⟨"B", ⟨100, 100, 102, 102⟩, "", none⟩] := by
    rfl
  exact ⟨h, merge_nearby_boxes_idempotent _ _ 20 h⟩

/-- C4 (failing input): two nearby boxes — centers `(1, 1)` and `(1, 11)`,
distance 10 ≤ threshold 20 — form a two-element group, and instead of
collapsing them to their union rectangle with joined text, the code raises
`AttributeError` because `_merge_text_boxes` reads the `confidence` attribute
that the `TextBox` model does not define. -/
theorem merge_nearby_boxes_crashes_on_nearby_pair :
    mergeNearbyBoxes
        [⟨"A", ⟨0, 0, 2, 2⟩, "", none⟩, ⟨"B", ⟨0, 10, 2, 12⟩, "", none⟩] 20 =
      .error "AttributeError: TextBox has no attribute confidence" := by
  rfl

/-! ## Orchestrator: reading-order sort (`services/orchestrator.py`) -/

/-- The language list of the right-to-left branch in
`TranslationOrchestrator._sort_text_boxes_reading_order`. -/
def rtlSecondaryLanguages : List String := ["japanese", "trad_chinese", "sim_chinese"]

/-- `get_sort_key` from `_sort_text_boxes_reading_order`: primary key `bbox.y1`;
secondary key `-bbox.x1` when the box carries a `language` attribute naming a
CJK right-to-left language, else `bbox.x1`. -/
def getSortKey (b : TextBox) : Int × Int :=
  match b.language with
  | some lang =>
      if lang ∈ rtlSecondaryLanguages then (b.bbox.y1, -b.bbox.x1)
      else (b.bbox.y1, b.bbox.x1)
  | none => (b.bbox.y1, b.bbox.x1)

/-- Python's lexicographic comparison of the two-element sort-key tuples, as
used by `sorted(text_boxes, key=get_sort_key)`. -/
def keyLE (k1 k2 : Int × Int) : Bool :=
  decide (k1.1 < k2.1 ∨ (k1.1 = k2.1 ∧ k1.2 ≤ k2.2))

/-- `TranslationOrchestrator._sort_text_boxes_reading_order`: a stable sort by
`get_sort_key` (Python's `sorted` is stable, as is `List.mergeSort`). -/
def sortTextBoxesReadingOrder (textBoxes : List TextBox) : List TextBox :=
  textBoxes.mergeSort (fun a b => keyLE (getSortKey a) (getSortKey b))

/-! ## Orchestrator: marker packing and unpacking (`services/orchestrator.py`) -/

/-- Python's `str.strip()` on a character list: drop whitespace from both
ends.  (Defined structurally so that concrete instances compute; Lean's
`String.trim` is extensionally the same operation.) -/
def stripChars (l : List Char) : List Char :=
  ((l.dropWhile Char.isWhitespace).reverse.dropWhile Char.isWhitespace).reverse

/-- Python's `str.strip()` on strings. -/
def pyStrip (s : String) : String := String.mk (stripChars s.data)

/-- Decimal rendering of a natural number, as Python's f-string `f"[{i}]"`
renders the index; `fuel` only forces structural recursion and is always
sufficient when called through `natToDecimal`. -/
def natToDecimalGo : Nat → Nat → List Char
  | 0, _ => []
  | fuel + 1, n =>
      if n < 10 then [Char.ofNat (48 + n)]
      else natToDecimalGo fuel (n / 10) ++ [Char.ofNat (48 + n % 10)]

/-- Decimal rendering of a natural number (`f"{i}"`). -/
def natToDecimal (n : Nat) : List Char := natToDecimalGo (n + 1) n

/-- `int()` applied to a captured group of decimal digits. -/
def natOfDigits (ds : List Char) : Nat :=
  ds.foldl (fun acc c => acc * 10 + (c.toNat - 48)) 0

/-- One marker block `f"[{i}]{text}[/{i}]"` as built by
`TranslationOrchestrator._combine_text_for_context`. -/
def markerBlock (i : Nat) (text : List Char) : List Char :=
  ['['] ++ natToDecimal i ++ [']'] ++ text ++ ['[', '/'] ++ natToDecimal i ++ [']']

/-- Python's `" ".join(parts)`. -/
def joinSpace : List (List Char) → List Char
  | [] => []
  | [x] => x
  | x :: xs => x ++ ' ' :: joinSpace xs

/-- `TranslationOrchestrator._combine_text_for_context`: sort the boxes into
reading order, wrap each box with non-blank text in its positional marker
(the index counts every sorted box, blank ones included), and join the parts
with single spaces. -/
def combineTextForContext (textBoxes : List TextBox) : List Char :=
  joinSpace
    ((sortTextBoxesReadingOrder textBoxes).enum.filterMap
      (fun p => if stripChars p.2.text.data = [] then none
                else some (markerBlock p.1 p.2.text.data)))

/-- Index of the first occurrence of `tag` in the string, i.e. the span the
lazy `(.*?)` of the unpacking regex ends at. -/
def findTagIdx (tag : List Char) : List Char → Option Nat
  | [] => none
  | c :: rest =>
      if tag.isPrefixOf (c :: rest) then some 0
      else (findTagIdx tag rest).map (· + 1)

/-- One attempted match of the regex `\[(\d+)\](.*?)\[/\1\]` (DOTALL) at the
current position: a literal `[`, a nonempty greedy digit group, `]`, then the
shortest content followed by the matching close tag.  Returns the parsed
index, the content, and the remainder of the string after the match. -/
def parseMarkerAt : List Char → Option (Nat × List Char × List Char)
  | [] => none
  | c :: rest =>
      if c = '[' then
        match rest.dropWhile Char.isDigit with
        | ']' :: body =>
            let ds := rest.takeWhile Char.isDigit
            if ds.isEmpty then none
            else
              let tag := '[' :: '/' :: (ds ++ [']'])
              match findTagIdx tag body with
              | some idx => some (natOfDigits ds, body.take idx, body.drop (idx + tag.length))
              | none => none
        | _ => none
      else none

/-- The scanning loop of `re.findall(r'\[(\d+)\](.*?)\[/\1\]', s, re.DOTALL)`:
where no match starts, advance one character; where one does, emit the pair and
resume after it.  `fuel` only forces structural recursion; every step consumes
at least one character, so `findMarkers` below always supplies enough. -/
def findMarkersGo : Nat → List Char → List (Nat × List Char)
  | 0, _ => []
  | _ + 1, [] => []
  | fuel + 1, c :: rest =>
      match parseMarkerAt (c :: rest) with
      | some (n, content, after) => (n, content) :: findMarkersGo fuel after
      | none => findMarkersGo fuel rest

/-- `re.findall(r'\[(\d+)\](.*?)\[/\1\]', s, re.DOTALL)` with `int()` applied
to the captured index group. -/
def findMarkers (s : List Char) : List (Nat × List Char) :=
  findMarkersGo s.length s

/-- The dict comprehension `{int(idx): text.strip() for idx, text in matches}`:
on duplicate indices, the last entry wins. -/
def dictLookup (assoc : List (Nat × String)) (i : Nat) : Option String :=
  assoc.reverse.lookup i

/-- `TranslationOrchestrator._distribute_translated_text` (the marker path; the
regex machinery above never raises on a string input).  The Python function
mutates the same box objects the input list holds, preserving the input
order; the embedding returns the boxes in reading-sorted order, which is the
same collection of updated boxes. -/
def distributeTranslatedText (textBoxes : List TextBox) (translatedCombined : String) :
    List TextBox :=
  (sortTextBoxesReadingOrder textBoxes).mapIdx (fun i b =>
    match dictLookup ((findMarkers translatedCombined.data).map
        (fun p => (p.1, String.mk (stripChars p.2)))) i with
    | some t => if t ≠ "" then { b with translated_text := t }
                else { b with translated_text := b.text }
    | none => { b with translated_text := b.text })

/-! ## Basic facts about the marker scanner -/

theorem findTagIdx_le_length (tag s : List Char) (idx : Nat)
    (h : findTagIdx tag s = some idx) : idx ≤ s.length := by
  induction s generalizing idx with
  | nil => simp [findTagIdx] at h
  | cons c rest ih =>
      simp only [findTagIdx] at h
      by_cases hp : tag.isPrefixOf (c :: rest)
      · rw [if_pos hp] at h; cases h; simp
      · rw [if_neg hp] at h
        cases hfind : findTagIdx tag rest with
        | none => rw [hfind] at h; cases h
        | some m =>
            rw [hfind] at h
            cases h
            have := ih m hfind
            simp; omega

theorem parseMarkerAt_after_length (s : List Char) (n : Nat) (content after : List Char)
    (h : parseMarkerAt s = some (n, content, after)) : after.length < s.length := by
  match s with
  | [] => simp [parseMarkerAt] at h
  | c :: rest =>
      simp only [parseMarkerAt] at h
      by_cases hc : c = '['
      · rw [if_pos hc] at h
        cases hdrop : rest.dropWhile Char.isDigit with
        | nil => rw [hdrop] at h; cases h
        | cons d body =>
            rw [hdrop] at h
            by_cases hd : d = ']'
            · subst hd
              simp only at h
              by_cases hds : (rest.takeWhile Char.isDigit).isEmpty
              · rw [if_pos hds] at h; cases h
              · rw [if_neg hds] at h
                cases hfind : findTagIdx
                    ('[' :: '/' :: (rest.takeWhile Char.isDigit ++ [']'])) body with
                | none => rw [hfind] at h; cases h
                | some idx =>
                    rw [hfind] at h
                    cases h
                    have hbody : body.length < rest.length := by
                      have hs : (rest.dropWhile Char.isDigit).length ≤ rest.length :=
                        List.Sublist.length_le (List.dropWhile_sublist _)
                      rw [hdrop] at hs
                      simp at hs
                      omega
                    have := List.length_drop
                      (idx + ('[' :: '/' :: (rest.takeWhile Char.isDigit ++ [']'])).length) body
                    simp only [List.length_cons] at this ⊢
                    omega
            · split at h
              · rename_i heq
                injection heq with h1 _
                exact absurd h1 hd
              · cases h
      · rw [if_neg hc] at h
        cases h

/-- The fuel of the scanner is irrelevant as long as it covers the string
length: each step strictly consumes characters. -/
theorem findMarkersGo_fuel (fuel : Nat) :
    ∀ (s : List Char) (f2 : Nat), s.length ≤ fuel → s.length ≤ f2 →
      findMarkersGo fuel s = findMarkersGo f2 s := by
  induction fuel with
  | zero =>
      intro s f2 h1 _
      have : s = [] := List.eq_nil_of_length_eq_zero (by omega)
      subst this
      cases f2 <;> rfl
  | succ fuel ih =>
      intro s f2 h1 h2
      cases s with
      | nil => cases f2 <;> rfl
      | cons c rest =>
          have hf2 : ∃ f2p, f2 = f2p + 1 := by
            cases f2
            · simp at h2
            · exact ⟨_, rfl⟩
          obtain ⟨f2p, rfl⟩ := hf2
          simp only [findMarkersGo]
          cases hp : parseMarkerAt (c :: rest) with
          | some v =>
              obtain ⟨n, content, after⟩ := v
              have hlen := parseMarkerAt_after_length _ _ _ _ hp
              simp only [List.length_cons] at h1 h2 hlen
              show (n, content) :: findMarkersGo fuel after =
                (n, content) :: findMarkersGo f2p after
              rw [ih after f2p (by omega) (by omega)]
          | none =>
              simp only [List.length_cons] at h1 h2
              show findMarkersGo fuel rest = findMarkersGo f2p rest
              rw [ih rest f2p (by omega) (by omega)]

/-- Master equation of the scanner. -/
theorem findMarkers_cons (c : Char) (rest : List Char) :
    findMarkers (c :: rest) =
      match parseMarkerAt (c :: rest) with
      | some (n, content, after) => (n, content) :: findMarkers after
      | none => findMarkers rest := by
  show findMarkersGo (rest.length + 1) (c :: rest) = _
  simp only [findMarkersGo]
  cases hp : parseMarkerAt (c :: rest) with
  | some v =>
      obtain ⟨n, content, after⟩ := v
      have hlen := parseMarkerAt_after_length _ _ _ _ hp
      simp only [List.length_cons] at hlen
      show (n, content) :: findMarkersGo rest.length after = (n, content) :: findMarkers after
      rw [findMarkersGo_fuel rest.length after after.length (by omega) (by omega)]
      rfl
  | none => rfl

/-! ## Decimal rendering facts -/

theorem natToDecimalGo_fuel (fuel : Nat) :
    ∀ (n f2 : Nat), n < fuel → n < f2 → natToDecimalGo fuel n = natToDecimalGo f2 n := by
  induction fuel with
  | zero => intro n f2 h1 _; omega
  | succ fuel ih =>
      intro n f2 h1 h2
      obtain ⟨f2p, rfl⟩ : ∃ f2p, f2 = f2p + 1 := by cases f2 with
        | zero => omega
        | succ m => exact ⟨m, rfl⟩
      simp only [natToDecimalGo]
      by_cases hn : n < 10
      · rw [if_pos hn, if_pos hn]
      · rw [if_neg hn, if_neg hn]
        have hdiv : n / 10 < n := Nat.div_lt_self (by omega) (by omega)
        rw [ih (n / 10) f2p (by omega) (by omega)]

theorem natToDecimal_eq (n : Nat) :
    natToDecimal n = if n < 10 then [Char.ofNat (48 + n)]
      else natToDecimal (n / 10) ++ [Char.ofNat (48 + n % 10)] := by
  show natToDecimalGo (n + 1) n = _
  simp only [natToDecimalGo]
  by_cases hn : n < 10
  · rw [if_pos hn, if_pos hn]
  · rw [if_neg hn, if_neg hn]
    have hdiv : n / 10 < n := Nat.div_lt_self (by omega) (by omega)
    rw [natToDecimalGo_fuel n (n / 10) (n / 10 + 1) (by omega) (by omega)]
    rfl

theorem digitChar_isDigit (m : Nat) (hm : m < 10) :
    (Char.ofNat (48 + m)).isDigit = true := by
  interval_cases m <;> decide

theorem digitChar_toNat (m : Nat) (hm : m < 10) :
    (Char.ofNat (48 + m)).toNat = 48 + m := by
  interval_cases m <;> decide

theorem natToDecimal_all_digits (n : Nat) : ∀ c ∈ natToDecimal n, c.isDigit = true := by
  induction n using Nat.strong_induction_on with
  | _ n ih =>
      rw [natToDecimal_eq]
      by_cases hn : n < 10
      · rw [if_pos hn]
        intro c hc
        rw [List.mem_singleton] at hc
        exact hc ▸ digitChar_isDigit n hn
      · rw [if_neg hn]
        intro c hc
        rcases List.mem_append.mp hc with hl | hr
        · exact ih (n / 10) (Nat.div_lt_self (by omega) (by omega)) c hl
        · rw [List.mem_singleton] at hr
          exact hr ▸ digitChar_isDigit (n % 10) (Nat.mod_lt _ (by omega))

theorem natToDecimal_ne_nil (n : Nat) : natToDecimal n ≠ [] := by
  rw [natToDecimal_eq]
  by_cases hn : n < 10
  · rw [if_pos hn]; simp
  · rw [if_neg hn]; simp

theorem natOfDigits_append_singleton (xs : List Char) (c : Char) :
    natOfDigits (xs ++ [c]) = natOfDigits xs * 10 + (c.toNat - 48) := by
  simp [natOfDigits, List.foldl_append]

theorem natOfDigits_natToDecimal (n : Nat) : natOfDigits (natToDecimal n) = n := by
  induction n using Nat.strong_induction_on with
  | _ n ih =>
      rw [natToDecimal_eq]
      by_cases hn : n < 10
      · rw [if_pos hn]
        show 0 * 10 + ((Char.ofNat (48 + n)).toNat - 48) = n
        rw [digitChar_toNat n hn]
        omega
      · rw [if_neg hn, natOfDigits_append_singleton,
          ih (n / 10) (Nat.div_lt_self (by omega) (by omega)),
          digitChar_toNat (n % 10) (Nat.mod_lt _ (by omega))]
        omega

/-- A digit character is not one of the marker-syntax characters. -/
theorem isDigit_ne_special (c : Char) (h : c.isDigit = true) :
    c ≠ '[' ∧ c ≠ ']' ∧ c ≠ '/' ∧ c ≠ ' ' := by
  refine ⟨?_, ?_, ?_, ?_⟩ <;> rintro rfl <;> exact absurd h (by decide)

theorem dropWhile_digits_bracket (ds xs : List Char) (h : ∀ c ∈ ds, c.isDigit = true) :
    (ds ++ ']' :: xs).dropWhile Char.isDigit = ']' :: xs := by
  induction ds with
  | nil => simp [List.dropWhile_cons]
  | cons d rest ih =>
      rw [List.cons_append, List.dropWhile_cons,
        if_pos (h d (List.mem_cons_self ..))]
      exact ih (fun c hc => h c (List.mem_cons_of_mem _ hc))

theorem takeWhile_digits_bracket (ds xs : List Char) (h : ∀ c ∈ ds, c.isDigit = true) :
    (ds ++ ']' :: xs).takeWhile Char.isDigit = ds := by
  induction ds with
  | nil => simp [List.takeWhile_cons]
  | cons d rest ih =>
      rw [List.cons_append, List.takeWhile_cons,
        if_pos (h d (List.mem_cons_self ..))]
      rw [ih (fun c hc => h c (List.mem_cons_of_mem _ hc))]

/-! ## Locating the closing tag -/

theorem findTagIdx_of (tag : List Char) (hne : tag ≠ []) :
    ∀ (s : List Char) (idx : Nat),
      (∀ p, p < idx → tag.isPrefixOf (s.drop p) = false) →
      tag.isPrefixOf (s.drop idx) = true → findTagIdx tag s = some idx := by
  intro s
  induction s with
  | nil =>
      intro idx _ hhit
      rw [List.drop_nil] at hhit
      have := List.prefix_nil.mp (List.isPrefixOf_iff_prefix.mp hhit)
      exact absurd this hne
  | cons c rest ih =>
      intro idx hmax hhit
      cases idx with
      | zero =>
          rw [List.drop_zero] at hhit
          simp only [findTagIdx]
          rw [if_pos hhit]
      | succ m =>
          have h0 : tag.isPrefixOf (c :: rest) = false := by
            have := hmax 0 (by omega)
            rwa [List.drop_zero] at this
          simp only [findTagIdx]
          rw [if_neg (by simp [h0])]
          have hrest : findTagIdx tag rest = some m := by
            apply ih m
            · intro p hp
              have := hmax (p + 1) (by omega)
              rwa [List.drop_succ_cons] at this
            · rwa [List.drop_succ_cons] at hhit
          rw [hrest]
          rfl

/-- No occurrence of the closing tag `[/ds]` can start strictly inside the
content, when the content does not contain the tag: an occurrence cannot
straddle the content/tag boundary because no character of the tag after its
leading `[` is itself `[`. -/
theorem tag_not_prefix_early (ds ctext tail2 : List Char)
    (hds : ∀ c ∈ ds, c.isDigit = true)
    (hnotin : ¬ ('[' :: '/' :: (ds ++ [']'])) <:+: ctext)
    (p : Nat) (hp : p < ctext.length) :
    ('[' :: '/' :: (ds ++ [']'])).isPrefixOf
      ((ctext ++ ('[' :: '/' :: (ds ++ [']'])) ++ tail2).drop p) = false := by
  set tag : List Char := '[' :: '/' :: (ds ++ [']']) with htag
  by_contra hcon
  have htrue : tag.isPrefixOf ((ctext ++ tag ++ tail2).drop p) = true := by
    revert hcon
    cases tag.isPrefixOf ((ctext ++ tag ++ tail2).drop p) <;> simp
  have hpre : tag <+: (ctext ++ tag ++ tail2).drop p :=
    List.isPrefixOf_iff_prefix.mp htrue
  obtain ⟨r, hr⟩ := hpre
  rw [List.append_assoc, List.drop_append_of_le_length (by omega)] at hr
  set w : List Char := ctext.drop p with hw
  have hwlen : w.length = ctext.length - p := by rw [hw, List.length_drop]
  by_cases hcase : tag.length ≤ w.length
  · -- a full occurrence fits inside the content, so the tag is an infix of it
    have htake : tag = w.take tag.length := by
      have h1 : (tag ++ r).take tag.length = tag := List.take_left tag r
      have h2 : (w ++ (tag ++ tail2)).take tag.length = w.take tag.length :=
        List.take_append_of_le_length hcase
      conv_lhs => rw [← h1, hr, h2]
    have hw2 : w = tag ++ w.drop tag.length := by
      conv_lhs => rw [← List.take_append_drop tag.length w, ← htake]
    have : tag <:+: ctext := by
      refine ⟨ctext.take p, w.drop tag.length, ?_⟩
      rw [List.append_assoc, ← hw2, hw, List.take_append_drop]
    exact hnotin this
  · -- a straddling occurrence would need a second `[` inside the tag
    have hwlt : w.length < tag.length := by omega
    have hw1 : 1 ≤ w.length := by omega
    have e0 : (tag ++ r)[w.length]? = (w ++ (tag ++ tail2))[w.length]? := by
      rw [hr]
    have e1 : (tag ++ r)[w.length]? = tag[w.length]? :=
      List.getElem?_append_left hwlt
    have e2 : (w ++ (tag ++ tail2))[w.length]? = some '[' := by
      rw [List.getElem?_append_right (Nat.le_refl _)]
      simp only [Nat.sub_self]
      rfl
    have key : tag[w.length]? = some '[' := by rw [← e1, e0, e2]
    obtain ⟨m, hm⟩ : ∃ m, w.length = m + 1 := ⟨w.length - 1, by omega⟩
    rw [hm] at key
    have key2 : ('/' :: (ds ++ [']']))[m]? = some '[' := by
      rw [htag] at key
      rw [List.getElem?_cons_succ] at key
      exact key
    have hmem : ('[' : Char) ∈ ('/' :: (ds ++ [']'])) :=
      List.getElem?_mem key2
    have hno : ('[' : Char) ∉ ('/' :: (ds ++ [']'])) := by
      intro hmem2
      rcases List.mem_cons.mp hmem2 with h | h
      · exact absurd h (by decide)
      · rcases List.mem_append.mp h with h | h
        · exact absurd rfl (isDigit_ne_special _ (hds _ h)).1
        · rw [List.mem_singleton] at h
          exact absurd h (by decide)
    exact hno hmem

/-- Scanning one packed block: the regex finds exactly the block's index and
content, and resumes after the block. -/
theorem findMarkers_block (k : Nat) (ctext tail2 : List Char)
    (hnotag : ¬ ('[' :: '/' :: (natToDecimal k ++ [']'])) <:+: ctext) :
    findMarkers (markerBlock k ctext ++ tail2) = (k, ctext) :: findMarkers tail2 := by
  set ds : List Char := natToDecimal k with hds
  set tag : List Char := '[' :: '/' :: (ds ++ [']']) with htag
  set body : List Char := ctext ++ tag ++ tail2 with hbody
  have hshape : markerBlock k ctext ++ tail2 = '[' :: (ds ++ ']' :: body) := by
    simp only [markerBlock, hbody, htag, hds]
    simp [List.append_assoc]
  rw [hshape, findMarkers_cons]
  have hdigits : ∀ c ∈ ds, c.isDigit = true := natToDecimal_all_digits k
  have hfind : findTagIdx tag body = some ctext.length := by
    apply findTagIdx_of tag (by rw [htag]; simp)
    · intro p hpp
      rw [hbody]
      exact tag_not_prefix_early ds ctext tail2 hdigits (htag ▸ hnotag) p hpp
    · rw [hbody, List.append_assoc, List.drop_append_of_le_length (Nat.le_refl _),
        List.drop_length, List.nil_append]
      exact List.isPrefixOf_iff_prefix.mpr (List.prefix_append tag tail2)
  have hparse : parseMarkerAt ('[' :: (ds ++ ']' :: body)) = some (k, ctext, tail2) := by
    simp only [parseMarkerAt, if_pos]
    rw [dropWhile_digits_bracket ds body hdigits,
      takeWhile_digits_bracket ds body hdigits]
    simp only [List.isEmpty_iff]
    rw [if_neg (hds ▸ natToDecimal_ne_nil k)]
    rw [← htag, hfind]
    have htake : body.take ctext.length = ctext := by
      rw [hbody, List.append_assoc]
      rw [List.take_append_of_le_length (Nat.le_refl _)]
      simp
    have hdrop : body.drop (ctext.length + tag.length) = tail2 := by
      rw [hbody]
      have : ctext.length + tag.length = (ctext ++ tag).length := by
        simp [List.length_append]
      rw [this, List.drop_left]
    show some (natOfDigits ds, body.take ctext.length,
        body.drop (ctext.length + tag.length)) = some (k, ctext, tail2)
    rw [htake, hdrop, hds, natOfDigits_natToDecimal]
  rw [hparse]

/-- Scanning a space: no match starts at a space. -/
theorem findMarkers_space (s : List Char) : findMarkers (' ' :: s) = findMarkers s := by
  rw [findMarkers_cons]
  have hnone : parseMarkerAt (' ' :: s) = none := by
    simp [parseMarkerAt]
  rw [hnone]

/-- Scanning the full packed payload: the regex recovers every index/content
pair in order, provided no content contains its own closing tag. -/
theorem findMarkers_pack (cs : List String) : ∀ (k : Nat),
    (∀ p ∈ List.enumFrom k cs, ¬ ('[' :: '/' :: (natToDecimal p.1 ++ [']'])) <:+: p.2.data) →
    findMarkers (joinSpace ((List.enumFrom k cs).map (fun p => markerBlock p.1 p.2.data))) =
      (List.enumFrom k cs).map (fun p => (p.1, p.2.data)) := by
  induction cs with
  | nil => intro k _; rfl
  | cons c cs' ih =>
      intro k hnotag
      have hc : ¬ ('[' :: '/' :: (natToDecimal k ++ [']'])) <:+: c.data := by
        have := hnotag (k, c) (by rw [List.enumFrom_cons]; exact List.mem_cons_self ..)
        exact this
      cases cs' with
      | nil =>
          show findMarkers (joinSpace [markerBlock k c.data]) = [(k, c.data)]
          show findMarkers (markerBlock k c.data) = [(k, c.data)]
          have := findMarkers_block k c.data [] hc
          rw [List.append_nil] at this
          rw [this]
          rfl
      | cons d ds' =>
          rw [List.enumFrom_cons, List.map_cons]
          have hjoin : joinSpace (markerBlock k c.data ::
              (List.enumFrom (k + 1) (d :: ds')).map (fun p => markerBlock p.1 p.2.data)) =
              markerBlock k c.data ++ ' ' ::
                joinSpace ((List.enumFrom (k + 1) (d :: ds')).map
                  (fun p => markerBlock p.1 p.2.data)) := by
            rw [List.enumFrom_cons, List.map_cons]
            rfl
          rw [hjoin, findMarkers_block k c.data _ hc, findMarkers_space]
          rw [ih (k + 1) (fun p hp => hnotag p (by
            rw [List.enumFrom_cons]
            exact List.mem_cons_of_mem _ hp))]
          rfl

/-! ## Dictionary-building facts -/

theorem lookup_keys_gt (assoc : List (Nat × String)) (i : Nat)
    (h : ∀ p ∈ assoc, i < p.1) : assoc.lookup i = none := by
  induction assoc with
  | nil => rfl
  | cons p rest ih =>
      obtain ⟨k, v⟩ := p
      have hik : (i == k) = false := by
        have := h (k, v) (List.mem_cons_self ..)
        simp only [beq_eq_false_iff_ne, ne_eq]
        omega
      rw [List.lookup_cons, hik]
      exact ih (fun p hp => h p (List.mem_cons_of_mem _ hp))

theorem lookup_append_of_none (l1 l2 : List (Nat × String)) (i : Nat)
    (h : l1.lookup i = none) : (l1 ++ l2).lookup i = l2.lookup i := by
  induction l1 with
  | nil => rfl
  | cons p rest ih =>
      obtain ⟨k, v⟩ := p
      rw [List.lookup_cons] at h
      rw [List.cons_append, List.lookup_cons]
      cases hik : (i == k) with
      | true => rw [hik] at h; cases h
      | false =>
          rw [hik] at h
          exact ih h

theorem lookup_append_of_some (l1 l2 : List (Nat × String)) (i : Nat) (v : String)
    (h : l1.lookup i = some v) : (l1 ++ l2).lookup i = some v := by
  induction l1 with
  | nil => cases h
  | cons p rest ih =>
      obtain ⟨k, w⟩ := p
      rw [List.lookup_cons] at h
      rw [List.cons_append, List.lookup_cons]
      cases hik : (i == k) with
      | true => rw [hik] at h; exact h
      | false =>
          rw [hik] at h
          exact ih h

theorem enumFrom_keys_ge (cs : List String) (g : String → String) :
    ∀ (k : Nat) (p : Nat × String),
      p ∈ (List.enumFrom k cs).map (fun q => (q.1, g q.2)) → k ≤ p.1 := by
  induction cs with
  | nil => intro k p hp; simp at hp
  | cons c rest ih =>
      intro k p hp
      rw [List.enumFrom_cons, List.map_cons, List.mem_cons] at hp
      rcases hp with rfl | hp
      · exact Nat.le_refl _
      · have := ih (k + 1) p hp
        omega

/-- Looking an index up in the translations dict built from the enumerated
contents returns exactly the processed content at that index. -/
theorem dictLookup_enumFrom (g : String → String) (cs : List String) :
    ∀ (k i : Nat), k ≤ i →
      dictLookup ((List.enumFrom k cs).map (fun p => (p.1, g p.2))) i =
        (cs[i - k]?).map g := by
  induction cs with
  | nil => intro k i _; simp [dictLookup]
  | cons c rest ih =>
      intro k i hk
      unfold dictLookup
      rw [List.enumFrom_cons, List.map_cons, List.reverse_cons]
      by_cases hik : i = k
      · subst hik
        have hnone : (((List.enumFrom (i + 1) rest).map
            (fun q => (q.1, g q.2))).reverse).lookup i = none := by
          apply lookup_keys_gt
          intro p hp
          have := enumFrom_keys_ge rest g (i + 1) p (List.mem_reverse.mp hp)
          omega
        rw [lookup_append_of_none _ _ _ hnone]
        simp [List.lookup_cons, Nat.sub_self]
      · have hklt : k + 1 ≤ i := by omega
        have := ih (k + 1) i hklt
        unfold dictLookup at this
        cases hrest : (rest[i - (k + 1)]?) with
        | some v =>
            rw [hrest] at this
            rw [lookup_append_of_some _ _ _ _ this]
            have : i - k = (i - (k + 1)) + 1 := by omega
            rw [this, List.getElem?_cons_succ, hrest]
            rfl
        | none =>
            rw [hrest] at this
            rw [lookup_append_of_none _ _ _ this]
            have h1 : i - k = (i - (k + 1)) + 1 := by omega
            rw [h1, List.getElem?_cons_succ, hrest]
            have hikb : (i == k) = false := by simpa using hik
            rw [List.lookup_cons, hikb]
            rfl

/-! ## Theorems for claim C2 -/

theorem snd_mem_enumFrom (l : List TextBox) :
    ∀ (k : Nat) (p : Nat × TextBox), p ∈ List.enumFrom k l → p.2 ∈ l := by
  induction l with
  | nil => intro k p hp; simp at hp
  | cons b rest ih =>
      intro k p hp
      rw [List.enumFrom_cons, List.mem_cons] at hp
      rcases hp with rfl | hp
      · exact List.mem_cons_self ..
      · exact List.mem_cons_of_mem _ (ih (k + 1) p hp)

theorem filterMap_marker_blocks (l : List (Nat × TextBox))
    (h : ∀ p ∈ l, stripChars p.2.text.data ≠ []) :
    l.filterMap (fun p => if stripChars p.2.text.data = [] then none
        else some (markerBlock p.1 p.2.text.data)) =
      l.map (fun p => markerBlock p.1 p.2.text.data) := by
  induction l with
  | nil => rfl
  | cons p rest ih =>
      rw [List.filterMap_cons, List.map_cons]
      rw [if_neg (h p (List.mem_cons_self ..))]
      rw [ih (fun q hq => h q (List.mem_cons_of_mem _ hq))]

/-- The sort is the identity on singletons. -/
theorem sortTextBoxes_singleton (b : TextBox) : sortTextBoxesReadingOrder [b] = [b] :=
  List.mergeSort_singleton b

/-- C2, counterexample to the claim as stated: for the box `"A"` packed as
`"[0]A[/0]"`, a provider echo `"[0] x [/0]"` carries the content `" x "`
between the box's markers, but unpacking assigns the stripped string `"x"`,
not `" x "` — the content is not recovered exactly. -/
theorem marker_roundtrip_counterexample :
    (distributeTranslatedText [⟨"A", ⟨0, 0, 2, 2⟩, "", none⟩] "[0] x [/0]").map
        (fun b => b.translated_text) = ["x"] ∧ ("x" : String) ≠ " x " := by
  constructor
  · simp only [distributeTranslatedText]
    rw [sortTextBoxes_singleton]
    rfl
  · decide

/-- C2 (amended): marker packing/unpacking round-trips up to whitespace
stripping — for boxes fixed by the reading-order sort with non-blank texts,
packing assigns box `i` the marker block `[i]text[/i]` joined by single
spaces; and when the provider echoes the same markers around contents that do
not contain their own closing tag, unpacking assigns each box the
whitespace-stripped content between its own markers (falling back to the
box's original text only for blank content). -/
theorem marker_roundtrip_amended (bs : List TextBox) (cs : List String)
    (hsort : sortTextBoxesReadingOrder bs = bs)
    (htext : ∀ b ∈ bs, stripChars b.text.data ≠ [])
    (hlen : cs.length = bs.length)
    (hblank : ∀ c ∈ cs, pyStrip c ≠ "")
    (hnotag : ∀ p ∈ cs.enum, ¬ ('[' :: '/' :: (natToDecimal p.1 ++ [']'])) <:+: p.2.data) :
    combineTextForContext bs =
        joinSpace (bs.enum.map (fun p => markerBlock p.1 p.2.text.data)) ∧
      distributeTranslatedText bs
          (String.mk (joinSpace (cs.enum.map (fun p => markerBlock p.1 p.2.data)))) =
        List.zipWith (fun b c => { b with translated_text := pyStrip c }) bs cs := by
  constructor
  · unfold combineTextForContext
    rw [hsort]
    rw [filterMap_marker_blocks bs.enum
      (fun p hp => htext p.2 (snd_mem_enumFrom bs 0 p hp))]
  · unfold distributeTranslatedText
    rw [hsort]
    have hfm : findMarkers (String.mk (joinSpace
        (cs.enum.map (fun p => markerBlock p.1 p.2.data)))).data =
        cs.enum.map (fun p => (p.1, p.2.data)) :=
      findMarkers_pack cs 0 hnotag
    rw [hfm, List.map_map]
    have htr : (cs.enum.map ((fun p => (p.1, String.mk (stripChars p.2))) ∘
        (fun p => (p.1, p.2.data)))) =
        cs.enum.map (fun q => (q.1, pyStrip q.2)) := by
      apply List.map_congr_left
      intro p _
      rfl
    rw [htr]
    apply List.ext_getElem
    · rw [List.length_mapIdx, List.length_zipWith]
      omega
    · intro i h1 h2
      have hibs : i < bs.length := by rwa [List.length_mapIdx] at h1
      have hics : i < cs.length := by omega
      rw [List.getElem_zipWith]
      rw [List.getElem_mapIdx]
      show (match dictLookup (cs.enum.map (fun q => (q.1, pyStrip q.2))) i with
        | some t => if t ≠ "" then { bs[i] with translated_text := t }
                    else { bs[i] with translated_text := bs[i].text }
        | none => { bs[i] with translated_text := bs[i].text }) =
        { bs[i] with translated_text := pyStrip cs[i] }
      have hdl : dictLookup (cs.enum.map (fun q => (q.1, pyStrip q.2))) i =
          some (pyStrip cs[i]) := by
        have := dictLookup_enumFrom pyStrip cs 0 i (Nat.zero_le i)
        rw [Nat.sub_zero] at this
        rw [List.getElem?_eq_getElem hics] at this
        exact this
      rw [hdl]
      show (if pyStrip cs[i] ≠ "" then { bs[i] with translated_text := pyStrip cs[i] }
            else { bs[i] with translated_text := bs[i].text }) =
          { bs[i] with translated_text := pyStrip cs[i] }
      rw [if_pos (hblank cs[i] (List.getElem_mem hics))]

/-- Witness for `marker_roundtrip_amended`: one box `"A"`, echoed content
`"x"`, round-trips to `translated_text = "x"`. -/
theorem marker_roundtrip_amended_witness :
    combineTextForContext [⟨"A", ⟨0, 0, 2, 2⟩, "", none⟩] = "[0]A[/0]".data ∧
      distributeTranslatedText [⟨"A", ⟨0, 0, 2, 2⟩, "", none⟩]
          (String.mk (joinSpace ((["x"] : List String).enum.map
            (fun p => markerBlock p.1 p.2.data)))) =
        [⟨"A", ⟨0, 0, 2, 2⟩, "x", none⟩] := by
  have h := marker_roundtrip_amended [⟨"A", ⟨0, 0, 2, 2⟩, "", none⟩] ["x"]
    (sortTextBoxes_singleton _)
    (by decide)
    (by decide)
    (by decide)
    (by decide)
  refine ⟨?_, ?_⟩
  · rw [h.1]; rfl
  · rw [h.2]; rfl

/-! ## Theorems for claim C7 -/

/-- The secondary sort key exactly as the spec words it: descending `bbox.x1`
(i.e. key `-x1`) for boxes whose language is japanese, trad_chinese or
sim_chinese, ascending `bbox.x1` otherwise. -/
def specSecondaryKey (b : TextBox) : Int :=
  if b.language = some "japanese" ∨ b.language = some "trad_chinese" ∨
      b.language = some "sim_chinese" then -b.bbox.x1
  else b.bbox.x1

/-- The reading order exactly as the spec words it: primarily top-to-bottom by
`bbox.y1`, secondarily by `specSecondaryKey`. -/
def specReadingOrderLE (b1 b2 : TextBox) : Prop :=
  b1.bbox.y1 < b2.bbox.y1 ∨
    (b1.bbox.y1 = b2.bbox.y1 ∧ specSecondaryKey b1 ≤ specSecondaryKey b2)

theorem keyLE_trans (a b c : TextBox)
    (h1 : keyLE (getSortKey a) (getSortKey b) = true)
    (h2 : keyLE (getSortKey b) (getSortKey c) = true) :
    keyLE (getSortKey a) (getSortKey c) = true := by
  simp only [keyLE, decide_eq_true_eq] at *
  omega

theorem keyLE_total (a b : TextBox) :
    (keyLE (getSortKey a) (getSortKey b) || keyLE (getSortKey b) (getSortKey a)) = true := by
  simp only [keyLE, Bool.or_eq_true, decide_eq_true_eq]
  omega

theorem getSortKey_eq_spec (b : TextBox) :
    getSortKey b = (b.bbox.y1, specSecondaryKey b) := by
  unfold getSortKey specSecondaryKey rtlSecondaryLanguages
  match hb : b.language with
  | none => simp [hb]
  | some lang =>
      by_cases hj : lang = "japanese" <;> by_cases ht : lang = "trad_chinese" <;>
        by_cases hs : lang = "sim_chinese" <;> simp [hb, hj, ht, hs]

/-- C7: `_sort_text_boxes_reading_order` reorders the boxes into reading order —
the result is a permutation of the input that is sorted primarily top-to-bottom
by `bbox.y1` and secondarily right-to-left (descending `bbox.x1`) for boxes
whose language is japanese, trad_chinese or sim_chinese, left-to-right
(ascending `bbox.x1`) otherwise. -/
theorem sort_reading_order_spec (textBoxes : List TextBox) :
    (sortTextBoxesReadingOrder textBoxes).Perm textBoxes ∧
      (sortTextBoxesReadingOrder textBoxes).Pairwise specReadingOrderLE := by
  constructor
  · exact List.mergeSort_perm textBoxes _
  · have hs := List.sorted_mergeSort keyLE_trans keyLE_total textBoxes
    refine hs.imp ?_
    intro a b hab
    simp only [keyLE, getSortKey_eq_spec, decide_eq_true_eq] at hab
    exact hab

/-! ## Theorems for claim C10 -/

/-- Every outcome of the movement loop is the original box or an in-bounds
translate of it. -/
theorem tryMovements_spec (b : BoundingBox) (w h : Int) (ms : List (Int × Int)) :
    tryMovements b w h ms = b ∨
      ∃ m ∈ ms, tryMovements b w h ms = moveBox b m ∧
        boxInBounds (tryMovements b w h ms) w h = true := by
  induction ms with
  | nil => exact Or.inl rfl
  | cons m rest ih =>
      by_cases hm : boxInBounds (moveBox b m) w h = true
      · refine Or.inr ⟨m, List.mem_cons_self .., ?_, ?_⟩ <;>
          simp [tryMovements, hm]
      · have hstep : tryMovements b w h (m :: rest) = tryMovements b w h rest := by
          simp only [tryMovements]
          rw [if_neg hm]
        rcases ih with h1 | ⟨m', hmem, heq, hbound⟩
        · exact Or.inl (hstep.trans h1)
        · exact Or.inr ⟨m', List.mem_cons_of_mem _ hmem, hstep.trans heq, hstep ▸ hbound⟩

/-- Translating a box preserves its width and height. -/
theorem moveBox_width_height (b : BoundingBox) (m : Int × Int) :
    (moveBox b m).width = b.width ∧ (moveBox b m).height = b.height := by
  constructor <;> simp [moveBox, BoundingBox.width, BoundingBox.height]

/-- `adjustAgainst` changes only the bounding box, never the text fields. -/
theorem adjustAgainst_text (w h : Int) (a e : TextBox) :
    (adjustAgainst w h a e).text = a.text ∧
      (adjustAgainst w h a e).translated_text = a.translated_text := by
  unfold adjustAgainst
  split <;> exact ⟨rfl, rfl⟩

theorem foldl_adjust_text (w h : Int) (acc : List TextBox) (b : TextBox) :
    (acc.foldl (adjustAgainst w h) b).text = b.text ∧
      (acc.foldl (adjustAgainst w h) b).translated_text = b.translated_text := by
  induction acc generalizing b with
  | nil => exact ⟨rfl, rfl⟩
  | cons e rest ih =>
      have h1 := adjustAgainst_text w h b e
      have h2 := ih (adjustAgainst w h b e)
      exact ⟨h2.1.trans h1.1, h2.2.trans h1.2⟩

theorem optimizeGo_texts (w h : Int) (acc bs : List TextBox) :
    (optimizeGo w h acc bs).map (fun b => (b.text, b.translated_text)) =
      acc.map (fun b => (b.text, b.translated_text)) ++
        bs.map (fun b => (b.text, b.translated_text)) := by
  induction bs generalizing acc with
  | nil => simp [optimizeGo]
  | cons b rest ih =>
      have hb := foldl_adjust_text w h acc b
      simp only [optimizeGo, ih, List.map_append, List.map_cons, List.map_nil,
        List.append_assoc, List.cons_append, List.nil_append, hb.1, hb.2]

/-- C10: overlap resolution only translates a box, never resizes it — for every
pair of boxes and image dimensions, `_resolve_overlap` returns a box with the
same width and height as the input, and the result either lies entirely within
the image bounds or is the original box unchanged; and `optimize_text_layout`
never modifies the `text`/`translated_text` fields of the boxes it repositions. -/
theorem resolve_overlap_translates_only (b1 b2 : BoundingBox) (w h : Int)
    (boxes : List TextBox) (iw ih : Int) :
    (resolveOverlap b1 b2 w h).width = b1.width ∧
      (resolveOverlap b1 b2 w h).height = b1.height ∧
      (boxInBounds (resolveOverlap b1 b2 w h) w h = true ∨ resolveOverlap b1 b2 w h = b1) ∧
      (optimizeTextLayout boxes iw ih).map (fun b => (b.text, b.translated_text)) =
        boxes.map (fun b => (b.text, b.translated_text)) := by
  refine ⟨?_, ?_, ?_, ?_⟩
  · rcases tryMovements_spec b1 w h
        [ (0, b2.y2 - b1.y1 + 5), (0, b2.y1 - b1.y2 - 5),
          (b2.x2 - b1.x1 + 5, 0), (b2.x1 - b1.x2 - 5, 0) ] with heq | ⟨m, _, heq, _⟩
    · rw [resolveOverlap, heq]
    · rw [resolveOverlap, heq]; exact (moveBox_width_height b1 m).1
  · rcases tryMovements_spec b1 w h
        [ (0, b2.y2 - b1.y1 + 5), (0, b2.y1 - b1.y2 - 5),
          (b2.x2 - b1.x1 + 5, 0), (b2.x1 - b1.x2 - 5, 0) ] with heq | ⟨m, _, heq, _⟩
    · rw [resolveOverlap, heq]
    · rw [resolveOverlap, heq]; exact (moveBox_width_height b1 m).2
  · rcases tryMovements_spec b1 w h
        [ (0, b2.y2 - b1.y1 + 5), (0, b2.y1 - b1.y2 - 5),
          (b2.x2 - b1.x1 + 5, 0), (b2.x1 - b1.x2 - 5, 0) ] with heq | ⟨m, _, _, hbound⟩
    · exact Or.inr heq
    · exact Or.inl hbound
  · unfold optimizeTextLayout
    split
    · rfl
    · simpa using optimizeGo_texts iw ih [] boxes

/-! ## Theorems for claim C9 -/

theorem wrapCjkGo_join (measure : List Char → Int) (w : Int) (cs cur : List Char) :
    (wrapCjkGo measure w cs cur).flatten = cur ++ cs := by
  induction cs generalizing cur with
  | nil =>
      by_cases hcur : cur = []
      · simp [wrapCjkGo, hcur]
      · simp [wrapCjkGo, hcur]
  | cons c rest ih =>
      simp only [wrapCjkGo]
      by_cases hfit : measure (cur ++ [c]) ≤ w
      · rw [if_pos hfit, ih]; simp
      · rw [if_neg hfit]
        by_cases hcur : cur = []
        · simp [hcur, ih]
        · simp [hcur, ih]

theorem wrapCjkGo_ne_nil (measure : List Char → Int) (w : Int) (cs cur : List Char)
    (l : List Char) (hl : l ∈ wrapCjkGo measure w cs cur) (hcur : cur ≠ []) : l ≠ [] := by
  induction cs generalizing cur with
  | nil =>
      simp only [wrapCjkGo, if_pos hcur, List.mem_singleton] at hl
      exact hl ▸ hcur
  | cons c rest ih =>
      simp only [wrapCjkGo] at hl
      by_cases hfit : measure (cur ++ [c]) ≤ w
      · rw [if_pos hfit] at hl
        exact ih (cur ++ [c]) hl (by simp)
      · rw [if_neg hfit, if_pos hcur, List.mem_cons] at hl
        rcases hl with rfl | hl
        · exact hcur
        · exact ih [c] hl (by simp)

/-- C9: character-by-character CJK wrapping loses no text — for every width
measurement oracle, every target width and every input, concatenating the lines
returned by `_wrap_cjk_text` in order yields exactly the input text, and no
returned line is empty. -/
theorem wrap_cjk_preserves_text (measure : List Char → Int) (text : List Char)
    (targetWidth : Int) :
    (wrapCjkText measure text targetWidth).flatten = text ∧
      ∀ l ∈ wrapCjkText measure text targetWidth, l ≠ [] := by
  constructor
  · simpa using wrapCjkGo_join measure targetWidth text []
  · intro l hl
    unfold wrapCjkText at hl
    cases text with
    | nil => simp [wrapCjkGo] at hl
    | cons c rest =>
        simp only [wrapCjkGo] at hl
        by_cases hfit : measure ([] ++ [c]) ≤ targetWidth
        · rw [if_pos hfit] at hl
          exact wrapCjkGo_ne_nil measure targetWidth rest ([] ++ [c]) l hl (by simp)
        · rw [if_neg hfit] at hl
          simp only [ne_eq, not_true_eq_false, if_false] at hl
          exact wrapCjkGo_ne_nil measure targetWidth rest [c] l hl (by simp)

/-! ## Translation fallback engine: the manager
(`services/translate/translation_manager.py`) -/

/-- The canonical language codes, the keys of `SUPPORTED_LANGUAGES` in
`services/translate/base.py`. -/
def supportedLanguages : List String :=
  ["sim_chinese", "trad_chinese", "korean", "vietnamese", "japanese", "english"]

/-- One translator in the manager's priority list, abstracted at the provider
boundary for a fixed language pair: whether `is_available()` reports true,
whether `supports_languages` holds for the pair, and the outcome of the
network call `translator.translate(from, to, [text])` — either an exception
(rate-limit or any other) or a returned list of strings. -/
structure ProviderCall where
  isAvailable : Bool
  supportsPair : Bool
  outcome : String → Except String (List String)

/-- `TranslationManager._validate_languages`: raise `ValueError` on an
unsupported code; report whether translation is needed (source ≠ target). -/
def validateLanguages (fromLang toLang : String) :
    Except String (String × String × Bool) :=
  if fromLang ∉ supportedLanguages then
    .error "ValueError: unsupported source language"
  else if toLang ∉ supportedLanguages then
    .error "ValueError: unsupported target language"
  else if fromLang = toLang then .ok (fromLang, toLang, false)
  else .ok (fromLang, toLang, true)

/-- The `for translator in self.translators` loop of
`TranslationManager.translate`: skip unavailable or unsupporting providers;
on a successful call return `result[0]` when the list is nonempty and its
first entry non-blank; on any exception (rate-limit included) or unusable
result fall through to the next provider. -/
def managerLoop (text : String) : List ProviderCall → Option String
  | [] => none
  | p :: rest =>
      if !p.isAvailable then managerLoop text rest
      else if !p.supportsPair then managerLoop text rest
      else match p.outcome text with
        | .error _ => managerLoop text rest
        | .ok [] => managerLoop text rest
        | .ok (r0 :: _) =>
            if r0 ≠ "" ∧ stripChars r0.data ≠ [] then some r0
            else managerLoop text rest

/-- `TranslationManager.translate` over abstract providers.  `.error` models
the function raising (invalid language codes); `.ok none` models the Python
function returning `None` after every provider was skipped or failed. -/
def managerTranslate (providers : List ProviderCall) (text : String)
    (fromLang toLang : String) : Except String (Option String) :=
  if stripChars text.data = [] then .ok (some text)
  else match validateLanguages fromLang toLang with
    | .error e => .error e
    | .ok (_, _, needsTranslation) =>
        if needsTranslation then .ok (managerLoop text providers)
        else .ok (some text)

/-- `TranslationManager.translate_batch`: validate once (raising on bad
codes), return the inputs unchanged when no translation is needed, else
translate each text through `translate` under the concurrency semaphore; a
per-entry exception or failure becomes a `None` entry. -/
def managerTranslateBatch (providers : List ProviderCall) (texts : List String)
    (fromLang toLang : String) : Except String (List (Option String)) :=
  if texts.isEmpty then .ok []
  else match validateLanguages fromLang toLang with
    | .error e => .error e
    | .ok (_, _, needsTranslation) =>
        if needsTranslation then
          .ok (texts.map (fun t =>
            match managerTranslate providers t fromLang toLang with
            | .ok r => r
            | .error _ => none))
        else .ok (texts.map some)

/-! ## Theorems for claim C6 -/

/-- A provider that contributes nothing for `text`: skipped as unavailable,
skipped for not supporting the pair, raising (rate-limit or otherwise), or
returning no usable entry. -/
def providerYieldsNothing (p : ProviderCall) (text : String) : Prop :=
  p.isAvailable = false ∨ p.supportsPair = false ∨
    (∃ e, p.outcome text = .error e) ∨ p.outcome text = .ok [] ∨
    (∃ r0 rest, p.outcome text = .ok (r0 :: rest) ∧ stripChars r0.data = [])

theorem managerLoop_none (text : String) :
    ∀ providers, (∀ p ∈ providers, providerYieldsNothing p text) →
      managerLoop text providers = none := by
  intro providers
  induction providers with
  | nil => intro _; rfl
  | cons p rest ih =>
      intro h
      have hp := h p (List.mem_cons_self ..)
      have hrest := ih (fun q hq => h q (List.mem_cons_of_mem _ hq))
      rcases hp with hv | hs | ⟨e, he⟩ | hnil | ⟨r0, rs, hres, hblank⟩
      · simp only [managerLoop, hv]
        exact hrest
      · simp only [managerLoop, hs]
        cases p.isAvailable <;> simp [hrest]
      · simp only [managerLoop, he]
        cases p.isAvailable <;> cases p.supportsPair <;> simp [hrest]
      · simp only [managerLoop, hnil]
        cases p.isAvailable <;> cases p.supportsPair <;> simp [hrest]
      · have hr0 : ¬(r0 ≠ "" ∧ stripChars r0.data ≠ []) := by
          intro hcon
          exact hcon.2 hblank
        simp only [managerLoop, hres]
        cases p.isAvailable <;> cases p.supportsPair <;> simp [hrest, hr0]

/-- C6, counterexample to the claim as stated: a single available, supporting
provider that raises makes the engine return `None` — not the empty string. -/
theorem manager_failure_not_empty_string :
    managerTranslate [⟨true, true, fun _ => .error "boom"⟩] "hi" "japanese" "english" =
        .ok none ∧
      managerTranslate [⟨true, true, fun _ => .error "boom"⟩] "hi" "japanese" "english" ≠
        .ok (some "") := by
  refine ⟨rfl, ?_⟩
  intro h
  have := Except.ok.inj h
  cases this

/-- C6 (amended): when every provider is skipped, rate-limited, or fails for a
text, `TranslationManager.translate` returns `None` (not an empty string), and
the corresponding `translate_batch` entries are `None` for every non-blank
text (blank texts are echoed back before any provider is consulted); the
caller then decides the fallback. -/
theorem manager_exhaustion_returns_none (providers : List ProviderCall)
    (text : String) (texts : List String) (fromLang toLang : String)
    (hv1 : fromLang ∈ supportedLanguages) (hv2 : toLang ∈ supportedLanguages)
    (hne : fromLang ≠ toLang)
    (htext : stripChars text.data ≠ [])
    (hfail : ∀ p ∈ providers, providerYieldsNothing p text)
    (hfailAll : ∀ p ∈ providers, ∀ t ∈ texts, providerYieldsNothing p t) :
    managerTranslate providers text fromLang toLang = .ok none ∧
      managerTranslateBatch providers texts fromLang toLang =
        .ok (texts.map (fun t =>
          if stripChars t.data = [] then some t else none)) := by
  have hval : validateLanguages fromLang toLang = .ok (fromLang, toLang, true) := by
    unfold validateLanguages
    rw [if_neg (by simpa using hv1), if_neg (by simpa using hv2), if_neg hne]
  constructor
  · unfold managerTranslate
    rw [if_neg htext, hval]
    show Except.ok (managerLoop text providers) = .ok none
    rw [managerLoop_none text providers hfail]
  · unfold managerTranslateBatch
    by_cases hempty : texts.isEmpty
    · rw [if_pos hempty]
      rw [List.isEmpty_iff] at hempty
      subst hempty
      rfl
    · rw [if_neg hempty, hval]
      show Except.ok (texts.map _) = _
      congr 1
      apply List.map_congr_left
      intro t ht
      by_cases hblank : stripChars t.data = []
      · rw [if_pos hblank]
        unfold managerTranslate
        rw [if_pos hblank]
      · rw [if_neg hblank]
        have hmt : managerTranslate providers t fromLang toLang = .ok none := by
          unfold managerTranslate
          rw [if_neg hblank, hval]
          show Except.ok (managerLoop t providers) = .ok none
          rw [managerLoop_none t providers (fun p hp => hfailAll p hp t ht)]
        rw [hmt]

/-- Witness for `manager_exhaustion_returns_none`: one raising provider,
text `"hi"`, Japanese to English. -/
theorem manager_exhaustion_returns_none_witness :
    managerTranslate [⟨true, true, fun _ => .error "rate limit"⟩] "hi"
        "japanese" "english" = .ok none ∧
      managerTranslateBatch [⟨true, true, fun _ => .error "rate limit"⟩] ["hi"]
        "japanese" "english" = .ok [none] := by
  have h := manager_exhaustion_returns_none
    [⟨true, true, fun _ => .error "rate limit"⟩] "hi" ["hi"] "japanese" "english"
    (by decide) (by decide) (by decide) (by decide)
    (by
      intro p hp
      rw [List.mem_singleton] at hp
      subst hp
      exact Or.inr (Or.inr (Or.inl ⟨"rate limit", rfl⟩)))
    (by
      intro p hp t ht
      rw [List.mem_singleton] at hp
      subst hp
      exact Or.inr (Or.inr (Or.inl ⟨"rate limit", rfl⟩)))
  exact ⟨h.1, h.2⟩

/-! ## Orchestrator pipeline (`services/orchestrator.py`) -/

/-- `ProcessingStage` from `models/schemas.py`. -/
inductive ProcessingStage
  | initialized | ocr | translation | inpainting | rendering | completed | error
deriving DecidableEq, Repr

/-- The fallback loop in the `except` handler of `_translate_text_boxes`:
every box whose `translated_text` is still empty gets its original text. -/
def applyOriginalFallback (textBoxes : List TextBox) : List TextBox :=
  textBoxes.map (fun b =>
    if b.translated_text = "" then { b with translated_text := b.text } else b)

/-- `_distribute_translated_text` as called with the manager's return value.
On a string it distributes through the marker regex (raising nothing); on
`None` — the manager's answer when every provider failed — `re.findall`
raises `TypeError`, the internal `except` diverts to
`_simple_text_distribution(text_boxes, None)`, and `None.split('.')` raises
`AttributeError`, which propagates to the caller. -/
def distributeOrRaise (textBoxes : List TextBox) :
    Option String → Except String (List TextBox)
  | none => .error "AttributeError: NoneType has no attribute split"
  | some s => .ok (distributeTranslatedText textBoxes s)

/-- `TranslationOrchestrator._translate_text_boxes`: combine the boxes, call
the manager, distribute the result; any raise along the way is caught and
answered by the original-text fallback on the (unmodified) boxes. -/
def translateTextBoxes (providers : List ProviderCall) (textBoxes : List TextBox)
    (fromLang toLang : String) : List TextBox :=
  match managerTranslate providers (String.mk (combineTextForContext textBoxes))
      fromLang toLang with
  | .error _ => applyOriginalFallback textBoxes
  | .ok r =>
      match distributeOrRaise textBoxes r with
      | .ok updated => updated
      | .error _ => applyOriginalFallback textBoxes

/-- `_inpaint_text_regions`: sequentially erase each box (the pixel-level
inpainter is the oracle), catching any failure by returning the original
image. -/
def inpaintTextRegions {Image : Type}
    (inpaintOracle : Image → TextBox → Except String Image)
    (image : Image) (textBoxes : List TextBox) : Image :=
  match textBoxes.foldlM inpaintOracle image with
  | .ok result => result
  | .error _ => image

/-- `_render_translated_text`: draw every box whose `translated_text` is
non-blank (the renderer is the oracle), catching any failure by returning
the original image. -/
def renderTranslatedText {Image : Type}
    (renderOracle : Image → TextBox → Except String Image)
    (image : Image) (textBoxes : List TextBox) : Image :=
  match textBoxes.foldlM (fun img b =>
      if stripChars b.translated_text.data ≠ [] then renderOracle img b
      else .ok img) image with
  | .ok result => result
  | .error _ => image

/-- The observable result of one pipeline run: the stage transitions reported
to the status callback, and either the final image with its boxes or the
single aggregated `ProcessingError`. -/
structure PipelineResult (Image : Type) where
  stages : List ProcessingStage
  outcome : Except String (Image × List TextBox)

/-- `TranslationOrchestrator.process_manga_translation`: OCR (zero boxes is a
hard failure), translation (failure-tolerant), inpainting, rendering,
completed; any uncaught stage failure transitions to `error` and the whole
call raises a single `ProcessingError`. -/
def processMangaTranslation {Image : Type}
    (ocrResult : Except String (List TextBox))
    (providers : List ProviderCall) (fromLang toLang : String)
    (inpaintOracle renderOracle : Image → TextBox → Except String Image)
    (image : Image) : PipelineResult Image :=
  match ocrResult with
  | .error e =>
      ⟨[.initialized, .ocr, .error], .error ("Translation process failed: " ++ e)⟩
  | .ok textBoxes =>
      if textBoxes.isEmpty then
        ⟨[.initialized, .ocr, .error],
          .error "Translation process failed: No text found in image."⟩
      else
        let translated := translateTextBoxes providers textBoxes fromLang toLang
        let inpainted := inpaintTextRegions inpaintOracle image translated
        let finalImage := renderTranslatedText renderOracle inpainted translated
        ⟨[.initialized, .ocr, .translation, .inpainting, .rendering, .completed],
          .ok (finalImage, translated)⟩

/-! ## Theorems for claim C1 -/

theorem mem_dropWhile_of_not {p : Char → Bool} {c : Char} :
    ∀ {l : List Char}, c ∈ l → p c = false → c ∈ l.dropWhile p := by
  intro l
  induction l with
  | nil => intro h _; cases h
  | cons x rest ih =>
      intro hmem hpc
      rw [List.dropWhile_cons]
      by_cases hx : p x = true
      · rw [if_pos hx]
        rcases List.mem_cons.mp hmem with rfl | hmem2
        · rw [hx] at hpc; cases hpc
        · exact ih hmem2 hpc
      · rw [if_neg hx]
        exact hmem

theorem mem_stripChars_of_not_whitespace {c : Char} {l : List Char}
    (hmem : c ∈ l) (hw : c.isWhitespace = false) : c ∈ stripChars l := by
  unfold stripChars
  rw [List.mem_reverse]
  apply mem_dropWhile_of_not _ hw
  rw [List.mem_reverse]
  exact mem_dropWhile_of_not hmem hw

theorem joinSpace_cons_exists (x : List Char) (xs : List (List Char)) :
    ∃ t, joinSpace (x :: xs) = x ++ t := by
  cases xs with
  | nil => exact ⟨[], (List.append_nil x).symm⟩
  | cons y ys => exact ⟨' ' :: joinSpace (y :: ys), rfl⟩

/-- A run with at least one box of non-blank text packs a combined payload
that is itself non-blank (it contains the first marker's `[`). -/
theorem combine_nonblank (textBoxes : List TextBox)
    (hne : textBoxes ≠ [])
    (htext : ∀ b ∈ textBoxes, stripChars b.text.data ≠ []) :
    stripChars (combineTextForContext textBoxes) ≠ [] := by
  have hperm := List.mergeSort_perm textBoxes
    (fun a b => keyLE (getSortKey a) (getSortKey b))
  have hsne : sortTextBoxesReadingOrder textBoxes ≠ [] := by
    intro hnil
    have := hperm.length_eq
    rw [show sortTextBoxesReadingOrder textBoxes =
      textBoxes.mergeSort (fun a b => keyLE (getSortKey a) (getSortKey b)) from rfl] at hnil
    rw [hnil] at this
    simp at this
    exact hne (List.eq_nil_of_length_eq_zero this.symm)
  obtain ⟨s0, srest, hs⟩ := List.exists_cons_of_ne_nil hsne
  have hs0mem : s0 ∈ textBoxes := by
    have : s0 ∈ sortTextBoxesReadingOrder textBoxes := by
      rw [hs]; exact List.mem_cons_self ..
    exact hperm.mem_iff.mp this
  have hs0 : stripChars s0.text.data ≠ [] := htext s0 hs0mem
  unfold combineTextForContext
  rw [hs]
  rw [show List.enum (s0 :: srest) = (0, s0) :: List.enumFrom 1 srest from rfl]
  rw [List.filterMap_cons]
  rw [if_neg hs0]
  obtain ⟨t, ht⟩ := joinSpace_cons_exists (markerBlock 0 s0.text.data) _
  rw [ht]
  intro hcon
  have hlb : ('[' : Char) ∈ markerBlock 0 s0.text.data ++ t := by
    apply List.mem_append_left
    unfold markerBlock
    simp
  have := mem_stripChars_of_not_whitespace hlb (by decide)
  rw [hcon] at this
  cases this

theorem applyOriginalFallback_spec (textBoxes : List TextBox)
    (hfresh : ∀ b ∈ textBoxes, b.translated_text = "") :
    (applyOriginalFallback textBoxes).map (fun b => (b.text, b.translated_text)) =
      textBoxes.map (fun b => (b.text, b.text)) := by
  unfold applyOriginalFallback
  rw [List.map_map]
  apply List.map_congr_left
  intro b hb
  show (fun b => (b.text, b.translated_text))
      (if b.translated_text = "" then { b with translated_text := b.text } else b) =
    (b.text, b.text)
  rw [if_pos (hfresh b hb)]

/-- C1: when the translation step raises, or every provider is skipped or
fails on the combined payload, the Orchestrator catches the failure, each
box's `translated_text` becomes that box's original text, and the run
continues through inpainting and rendering to `completed` rather than
failing. -/
theorem translation_failure_not_fatal {Image : Type}
    (textBoxes : List TextBox) (providers : List ProviderCall)
    (fromLang toLang : String)
    (inpaintOracle renderOracle : Image → TextBox → Except String Image)
    (image : Image)
    (hne : textBoxes ≠ [])
    (hfresh : ∀ b ∈ textBoxes, b.translated_text = "")
    (htext : ∀ b ∈ textBoxes, stripChars b.text.data ≠ [])
    (hfailure :
      (∃ e, managerTranslate providers
          (String.mk (combineTextForContext textBoxes)) fromLang toLang = .error e) ∨
        (fromLang ∈ supportedLanguages ∧ toLang ∈ supportedLanguages ∧
          fromLang ≠ toLang ∧
          ∀ p ∈ providers, providerYieldsNothing p
            (String.mk (combineTextForContext textBoxes)))) :
    (processMangaTranslation (.ok textBoxes) providers fromLang toLang
        inpaintOracle renderOracle image).stages =
      [.initialized, .ocr, .translation, .inpainting, .rendering, .completed] ∧
    ∃ img boxes,
      (processMangaTranslation (.ok textBoxes) providers fromLang toLang
          inpaintOracle renderOracle image).outcome = .ok (img, boxes) ∧
        boxes.map (fun b => (b.text, b.translated_text)) =
          textBoxes.map (fun b => (b.text, b.text)) := by
  have hmgr : managerTranslate providers
      (String.mk (combineTextForContext textBoxes)) fromLang toLang = .error
        (match managerTranslate providers
          (String.mk (combineTextForContext textBoxes)) fromLang toLang with
         | .error e => e
         | .ok _ => "") ∨
      managerTranslate providers
        (String.mk (combineTextForContext textBoxes)) fromLang toLang = .ok none := by
    rcases hfailure with ⟨e, he⟩ | ⟨hv1, hv2, hnefl, hfail⟩
    · left; rw [he]
    · right
      unfold managerTranslate
      rw [if_neg (combine_nonblank textBoxes hne htext)]
      have hval : validateLanguages fromLang toLang = .ok (fromLang, toLang, true) := by
        unfold validateLanguages
        rw [if_neg (by simpa using hv1), if_neg (by simpa using hv2), if_neg hnefl]
      rw [hval]
      show Except.ok (managerLoop _ providers) = .ok none
      rw [managerLoop_none _ providers hfail]
  have htb : translateTextBoxes providers textBoxes fromLang toLang =
      applyOriginalFallback textBoxes := by
    unfold translateTextBoxes
    rcases hmgr with he | hnone
    · rw [he]
    · rw [hnone]
      rfl
  have hempty : textBoxes.isEmpty = false := by
    cases hcase : textBoxes.isEmpty
    · rfl
    · exact absurd (List.isEmpty_iff.mp hcase) hne
  constructor
  · simp only [processMangaTranslation, hempty]
    rfl
  · refine ⟨renderTranslatedText renderOracle
      (inpaintTextRegions inpaintOracle image (applyOriginalFallback textBoxes))
      (applyOriginalFallback textBoxes), applyOriginalFallback textBoxes, ?_, ?_⟩
    · simp only [processMangaTranslation, hempty, htb]
      rfl
    · exact applyOriginalFallback_spec textBoxes hfresh

/-- Witness for `translation_failure_not_fatal`: one `"A"` box, one raising
provider, Japanese to English, unit images with never-failing inpaint and
render oracles — the run completes with `translated_text = "A"`. -/
theorem translation_failure_not_fatal_witness :
    (processMangaTranslation (.ok [⟨"A", ⟨0, 0, 2, 2⟩, "", none⟩])
        [⟨true, true, fun _ => .error "boom"⟩] "japanese" "english"
        (fun (i : Unit) _ => .ok i) (fun (i : Unit) _ => .ok i) ()).stages =
      [.initialized, .ocr, .translation, .inpainting, .rendering, .completed] ∧
    ∃ img boxes,
      (processMangaTranslation (.ok [⟨"A", ⟨0, 0, 2, 2⟩, "", none⟩])
          [⟨true, true, fun _ => .error "boom"⟩] "japanese" "english"
          (fun (i : Unit) _ => .ok i) (fun (i : Unit) _ => .ok i) ()).outcome = .ok (img, boxes) ∧
        boxes.map (fun b => (b.text, b.translated_text)) = [("A", "A")] := by
  have h := translation_failure_not_fatal
    [⟨"A", ⟨0, 0, 2, 2⟩, "", none⟩] [⟨true, true, fun _ => .error "boom"⟩]
    "japanese" "english" (fun (i : Unit) _ => .ok i) (fun (i : Unit) _ => .ok i) ()
    (by decide) (by decide) (by decide)
    (Or.inr ⟨by decide, by decide, by decide, by
      intro p hp
      rw [List.mem_singleton] at hp
      subst hp
      exact Or.inr (Or.inr (Or.inl ⟨"boom", rfl⟩))⟩)
  exact ⟨h.1, h.2⟩

/-! ## Translation fallback engine: the base translator
(`services/translate/base.py`) -/

/-- `is_valuable_text` from `services/translate/base.py`.  `alnum` is Python's
unicode-aware per-character `str.isalnum`, passed as an oracle.  The source's
float comparison `alphanumeric_count < len(cleaned) * 0.3` is embedded as the
exact rational comparison `10 * count < 3 * len`: the double nearest 0.3 lies
just below 3/10, and `len * 0.3` rounds to a value in `(count - 1, count]`
whenever `10 * count = 3 * len`, so the comparison never flips. -/
def isValuableText (alnum : Char → Bool) (text : String) : Bool :=
  if stripChars text.data = [] then false
  else
    let cleaned := text.data.filter (fun c => !c.isWhitespace)
    if cleaned.length < 2 then false
    else
      let alphanumericCount := (cleaned.filter alnum).length
      if 10 * alphanumericCount < 3 * cleaned.length then false
      else true

/-- A `BaseTranslator` subclass abstracted at its override points:
`_INVALID_REPEAT_COUNT`, `_is_translation_invalid`,
`_modify_invalid_translation_query`, `_clean_translation_output` (for the
fixed target language), and Python's `isalnum`. -/
structure TranslatorConfig where
  invalidRepeatCount : Nat
  isInvalid : String → String → Bool
  modifyQuery : String → String → String
  clean : String → String → String
  alnum : Char → Bool

/-- Lines 219-223 of `services/translate/base.py`: extend a short provider
answer with empty strings, or truncate a long one, to the query count. -/
def padTruncate (ts : List String) (n : Nat) : List String :=
  if ts.length < n then ts ++ List.replicate (n - ts.length) ""
  else ts.take n

/-- Lines 226-227: `for j in untranslated_indices: translations[j] = _translations[j]`. -/
def writeBack (translations ts : List String) (untranslated : List Nat) : List String :=
  untranslated.foldl (fun acc j => acc.set j (ts.getD j "")) translations

/-- The retry loop of `BaseTranslator.translate` (lines 201-243), over the
attempt-indexed oracle for the network `_translate` calls.  Returns the final
`queries_to_translate` (mutated by `_modify_invalid_translation_query`) and
`translations` arrays, which the cleanup pass zips. -/
def baseTranslateLoop (cfg : TranslatorConfig)
    (oracle : Nat → List String → Except String (List String)) :
    Nat → Nat → List String → List String → List Nat → List String × List String
  | 0, _, qts, translations, _ => (qts, translations)
  | remaining + 1, attempt, qts, translations, untranslated =>
      match oracle attempt qts with
      | .error _ => (qts, translations)
      | .ok ts =>
          let padded := padTruncate ts qts.length
          let translations2 := writeBack translations padded untranslated
          if cfg.invalidRepeatCount = 0 then (qts, translations2)
          else
            let newUntranslated := untranslated.filter
              (fun j => cfg.isInvalid (qts.getD j "") (translations2.getD j ""))
            let qts2 := newUntranslated.foldl
              (fun acc j => acc.set j
                (cfg.modifyQuery (acc.getD j "") (translations2.getD j ""))) qts
            if newUntranslated.isEmpty then (qts2, translations2)
            else baseTranslateLoop cfg oracle remaining (attempt + 1)
              qts2 translations2 newUntranslated

/-- Lines 251-253: merge the cleaned translations back into the final result
at the valuable positions (`query_indices` is ascending, so sequential
consumption is the same assignment). -/
def mergeBack (alnum : Char → Bool) : List String → List String → List String
  | [], _ => []
  | q :: qs, cleaned =>
      if isValuableText alnum q then
        match cleaned with
        | [] => q :: mergeBack alnum qs []
        | c :: cs => c :: mergeBack alnum qs cs
      else q :: mergeBack alnum qs cleaned

/-- `BaseTranslator.translate` from `services/translate/base.py`, for a
validated language pair with source ≠ target: keep non-valuable queries
verbatim, run the retry loop over the valuable ones, clean each translation
against its (possibly modified) query, and merge the results back in
position. -/
def baseTranslate (cfg : TranslatorConfig)
    (oracle : Nat → List String → Except String (List String))
    (queries : List String) : List String :=
  let queriesToTranslate := queries.filter (isValuableText cfg.alnum)
  if queriesToTranslate.isEmpty then queries
  else
    let result := baseTranslateLoop cfg oracle (1 + cfg.invalidRepeatCount) 0
      queriesToTranslate (List.replicate queriesToTranslate.length "")
      (List.range queriesToTranslate.length)
    mergeBack cfg.alnum queries (List.zipWith cfg.clean result.1 result.2)

/-! ## Theorems for claim C3 -/

theorem mergeBack_length (alnum : Char → Bool) :
    ∀ (qs cleaned : List String), (mergeBack alnum qs cleaned).length = qs.length := by
  intro qs
  induction qs with
  | nil => intro cleaned; rfl
  | cons q rest ih =>
      intro cleaned
      unfold mergeBack
      by_cases hv : isValuableText alnum q = true
      · rw [if_pos hv]
        cases cleaned with
        | nil => simp [ih]
        | cons c cs => simp [ih]
      · rw [if_neg hv]
        simp [ih]

theorem mergeBack_not_valuable (alnum : Char → Bool) :
    ∀ (qs cleaned : List String) (i : Nat) (q : String),
      qs[i]? = some q → isValuableText alnum q = false →
      (mergeBack alnum qs cleaned)[i]? = some q := by
  intro qs
  induction qs with
  | nil => intro cleaned i q hq _; simp at hq
  | cons q0 rest ih =>
      intro cleaned i q hq hnv
      unfold mergeBack
      cases i with
      | zero =>
          rw [List.getElem?_cons_zero] at hq
          cases hq
          rw [if_neg (by simp [hnv])]
          exact List.getElem?_cons_zero
      | succ m =>
          rw [List.getElem?_cons_succ] at hq
          by_cases hv : isValuableText alnum q0 = true
          · rw [if_pos hv]
            cases cleaned with
            | nil => rw [List.getElem?_cons_succ]; exact ih [] m q hq hnv
            | cons c cs => rw [List.getElem?_cons_succ]; exact ih cs m q hq hnv
          · rw [if_neg hv]
            rw [List.getElem?_cons_succ]
            exact ih cleaned m q hq hnv

theorem mergeBack_all_valuable (alnum : Char → Bool) :
    ∀ (qs cleaned : List String), (∀ q ∈ qs, isValuableText alnum q = true) →
      cleaned.length = qs.length → mergeBack alnum qs cleaned = cleaned := by
  intro qs
  induction qs with
  | nil =>
      intro cleaned _ hlen
      rw [List.length_nil, List.length_eq_zero] at hlen
      rw [hlen]
      rfl
  | cons q rest ih =>
      intro cleaned hval hlen
      unfold mergeBack
      rw [if_pos (hval q (List.mem_cons_self ..))]
      cases cleaned with
      | nil => simp at hlen
      | cons c cs =>
          show c :: mergeBack alnum rest cs = c :: cs
          rw [ih cs (fun x hx => hval x (List.mem_cons_of_mem _ hx))
            (by simpa using hlen)]

theorem writeBack_length (ts : List String) :
    ∀ (idxs : List Nat) (translations : List String),
      (writeBack translations ts idxs).length = translations.length := by
  intro idxs
  induction idxs with
  | nil => intro translations; rfl
  | cons j rest ih =>
      intro translations
      show (writeBack (translations.set j (ts.getD j "")) ts rest).length = _
      rw [ih, List.length_set]

theorem writeBack_getElem? (ts : List String) :
    ∀ (idxs : List Nat) (translations : List String) (i : Nat),
      (writeBack translations ts idxs)[i]? =
        if i ∈ idxs ∧ i < translations.length then some (ts.getD i "")
        else translations[i]? := by
  intro idxs
  induction idxs with
  | nil =>
      intro translations i
      simp [writeBack]
  | cons j rest ih =>
      intro translations i
      show (writeBack (translations.set j (ts.getD j "")) ts rest)[i]? = _
      rw [ih, List.length_set]
      by_cases hlen : i < translations.length
      · by_cases hmem : i ∈ rest
        · rw [if_pos ⟨hmem, hlen⟩,
            if_pos ⟨List.mem_cons_of_mem _ hmem, hlen⟩]
        · rw [if_neg (fun hcon => hmem hcon.1)]
          by_cases hij : i = j
          · subst hij
            rw [if_pos ⟨List.mem_cons_self .., hlen⟩]
            exact List.getElem?_set_self hlen
          · rw [if_neg (fun hcon => by
              rcases List.mem_cons.mp hcon.1 with h | h
              · exact hij h
              · exact hmem h)]
            exact List.getElem?_set_ne (fun h => hij h.symm)
      · rw [if_neg (fun hcon => hlen hcon.2), if_neg (fun hcon => hlen hcon.2)]
        rw [List.getElem?_set]
        by_cases hji : j = i
        · subst hji
          rw [if_pos rfl, if_neg hlen]
          rw [List.getElem?_eq_none (by omega)]
        · rw [if_neg hji]

/-- Writing every provider entry back over the fresh `['']*n` array at every
index recovers exactly the padded provider answer. -/
theorem writeBack_full (ts translations : List String)
    (hlen : ts.length = translations.length) :
    writeBack translations ts (List.range translations.length) = ts := by
  apply List.ext_getElem?
  intro i
  rw [writeBack_getElem? ts (List.range translations.length) translations i]
  by_cases hi : i < translations.length
  · rw [if_pos ⟨List.mem_range.mpr hi, hi⟩]
    rw [List.getD_eq_getElem?_getD, List.getElem?_eq_getElem (by omega)]
    rfl
  · rw [if_neg (fun hcon => hi hcon.2)]
    rw [List.getElem?_eq_none (by omega), List.getElem?_eq_none (by omega)]

theorem writeBack_full2 (ts translations : List String) (n : Nat)
    (h1 : translations.length = n) (h2 : ts.length = n) :
    writeBack translations ts (List.range n) = ts := by
  subst h1
  exact writeBack_full ts translations h2

theorem padTruncate_length (ts : List String) (n : Nat) :
    (padTruncate ts n).length = n := by
  unfold padTruncate
  by_cases h : ts.length < n
  · rw [if_pos h]
    rw [List.length_append, List.length_replicate]
    omega
  · rw [if_neg h]
    rw [List.length_take]
    omega

/-- C3: batch translation is length- and order-preserving.  For every
translator configuration, provider oracle, and query list:
the output has exactly the input's length; a non-valuable input at position
`i` is returned verbatim at output position `i`; with no retries and an
all-valuable input, the output is the provider's answer padded with empty
entries or truncated to the query count, cleaned entrywise, in input order;
and every successful `translate_batch` result has one entry per input. -/
theorem translate_length_order_preserving (cfg : TranslatorConfig)
    (oracle : Nat → List String → Except String (List String))
    (queries ts : List String) (providers : List ProviderCall)
    (texts : List String) (fromLang toLang : String) (out : List (Option String)) :
    (baseTranslate cfg oracle queries).length = queries.length ∧
    (∀ (i : Nat) (q : String), queries[i]? = some q →
      isValuableText cfg.alnum q = false →
      (baseTranslate cfg oracle queries)[i]? = some q) ∧
    (cfg.invalidRepeatCount = 0 →
      (∀ q ∈ queries, isValuableText cfg.alnum q = true) →
      oracle 0 queries = .ok ts →
      baseTranslate cfg oracle queries =
        List.zipWith cfg.clean queries (padTruncate ts queries.length)) ∧
    (managerTranslateBatch providers texts fromLang toLang = .ok out →
      out.length = texts.length) := by
  refine ⟨?_, ?_, ?_, ?_⟩
  · unfold baseTranslate
    by_cases hempty : (queries.filter (isValuableText cfg.alnum)).isEmpty
    · rw [if_pos hempty]
    · rw [if_neg hempty]
      exact mergeBack_length cfg.alnum queries _
  · intro i q hq hnv
    unfold baseTranslate
    by_cases hempty : (queries.filter (isValuableText cfg.alnum)).isEmpty
    · rw [if_pos hempty]
      exact hq
    · rw [if_neg hempty]
      exact mergeBack_not_valuable cfg.alnum queries _ i q hq hnv
  · intro hrep hval horacle
    have hfilter : queries.filter (isValuableText cfg.alnum) = queries :=
      List.filter_eq_self.mpr hval
    unfold baseTranslate
    rw [hfilter]
    by_cases hempty : queries.isEmpty
    · rw [if_pos hempty]
      rw [List.isEmpty_iff] at hempty
      subst hempty
      rfl
    · rw [if_neg hempty]
      rw [hrep]
      have hwb : writeBack (List.replicate queries.length "")
          (padTruncate ts queries.length) (List.range queries.length) =
          padTruncate ts queries.length :=
        writeBack_full2 (padTruncate ts queries.length)
          (List.replicate queries.length "") queries.length
          (List.length_replicate ..) (padTruncate_length ts queries.length)
      have hloop : baseTranslateLoop cfg oracle (1 + 0) 0 queries
          (List.replicate queries.length "") (List.range queries.length) =
          (queries, padTruncate ts queries.length) := by
        show baseTranslateLoop cfg oracle (0 + 1) 0 queries
          (List.replicate queries.length "") (List.range queries.length) = _
        simp only [baseTranslateLoop]
        rw [horacle]
        simp only [hrep, if_true]
        rw [hwb]
      rw [hloop]
      show mergeBack cfg.alnum queries
          (List.zipWith cfg.clean queries (padTruncate ts queries.length)) = _
      apply mergeBack_all_valuable cfg.alnum queries _ hval
      rw [List.length_zipWith, padTruncate_length]
      omega
  · intro hbatch
    unfold managerTranslateBatch at hbatch
    by_cases hempty : texts.isEmpty
    · rw [if_pos hempty] at hbatch
      cases hbatch
      rw [List.isEmpty_iff] at hempty
      subst hempty
      rfl
    · rw [if_neg hempty] at hbatch
      cases hval : validateLanguages fromLang toLang with
      | error e => rw [hval] at hbatch; cases hbatch
      | ok v =>
          obtain ⟨f, t, needs⟩ := v
          rw [hval] at hbatch
          cases needs with
          | true =>
              simp only [if_true] at hbatch
              cases hbatch
              rw [List.length_map]
          | false =>
              simp only [Bool.false_eq_true, if_false] at hbatch
              cases hbatch
              rw [List.length_map]

/-- Witness for `translate_length_order_preserving`: a two-query batch with a
trivial second query and a one-entry provider answer — the output keeps the
input length, echoes the trivial query in place, and pads the missing entry. -/
theorem translate_length_order_preserving_witness :
    (baseTranslate ⟨0, fun _ _ => false, fun q _ => q, fun _ t => t, Char.isAlphanum⟩
        (fun _ _ => .ok ["T1"]) ["hello", "!!!"]).length = 2 ∧
    (baseTranslate ⟨0, fun _ _ => false, fun q _ => q, fun _ t => t, Char.isAlphanum⟩
        (fun _ _ => .ok ["T1"]) ["hello", "!!!"])[1]? = some "!!!" ∧
    baseTranslate ⟨0, fun _ _ => false, fun q _ => q, fun _ t => t, Char.isAlphanum⟩
        (fun _ _ => .ok ["T1"]) ["hello", "world"] = ["T1", ""] ∧
    ([none, none] : List (Option String)).length = (["a", "b"] : List String).length := by
  have h1 := translate_length_order_preserving
    ⟨0, fun _ _ => false, fun q _ => q, fun _ t => t, Char.isAlphanum⟩
    (fun _ _ => .ok ["T1"]) ["hello", "!!!"] ["T1"] [] ["a", "b"]
    "japanese" "english" [none, none]
  have h2 := translate_length_order_preserving
    ⟨0, fun _ _ => false, fun q _ => q, fun _ t => t, Char.isAlphanum⟩
    (fun _ _ => .ok ["T1"]) ["hello", "world"] ["T1"] [] ["a", "b"]
    "japanese" "english" [none, none]
  refine ⟨h1.1, ?_, ?_, ?_⟩
  · exact h1.2.1 1 "!!!" rfl (by decide)
  · rw [h2.2.2.1 rfl (by decide) rfl]
    rfl
  · exact h1.2.2.2 (by rfl)

/-! ## Font manager: latin wrapping and the font-size search
(`services/render/font_manager.py`) -/

/-- Python's per-string `str.lower()` (character-wise, as used on language
names, which are ASCII). -/
def pyLower (s : String) : String := String.mk (s.data.map Char.toLower)

/-- `FontManager._is_cjk_language` (the same list appears in
`LayoutCalculator`). -/
def isCjkLanguage (language : String) : Bool :=
  pyLower language ∈ (["japanese", "sim_chinese", "trad_chinese", "korean"] : List String)

/-- Python's `str.split()` with no separator: split on whitespace runs,
discarding empty pieces.  `cur` accumulates the current word reversed. -/
def pySplitGo : List Char → List Char → List (List Char)
  | [], cur => if cur ≠ [] then [cur.reverse] else []
  | c :: rest, cur =>
      if c.isWhitespace then
        if cur ≠ [] then cur.reverse :: pySplitGo rest [] else pySplitGo rest []
      else pySplitGo rest (c :: cur)

/-- `text.split()`. -/
def pySplit (text : List Char) : List (List Char) := pySplitGo text []

/-- The character loop of `FontManager._break_long_word_with_hyphen`: grow the
part while it still fits with a trailing hyphen, else emit the part with the
hyphen and restart from the character. -/
def breakLongWordGo (measure : List Char → Int) (maxWidth : Int) :
    List Char → List Char → List (List Char)
  | [], cur => if cur ≠ [] then [cur] else []
  | c :: rest, cur =>
      let testPart := cur ++ [c]
      if measure (testPart ++ ['-']) ≤ maxWidth then
        breakLongWordGo measure maxWidth rest testPart
      else if cur ≠ [] then
        (cur ++ ['-']) :: breakLongWordGo measure maxWidth rest [c]
      else
        breakLongWordGo measure maxWidth rest [c]

/-- `FontManager._break_long_word_with_hyphen`. -/
def breakLongWordWithHyphen (measure : List Char → Int) (maxWidth : Int)
    (word : List Char) : List (List Char) :=
  let parts := breakLongWordGo measure maxWidth word []
  if parts.isEmpty then [word] else parts

/-- The word loop of `FontManager._wrap_latin_text`: greedy word wrap with
hyphenated breaking of over-wide words. -/
def wrapLatinMainGo (measure : List Char → Int) (targetWidth : Int) :
    List (List Char) → List (List Char) → List Char → List (List Char)
  | [], lines, cur => if cur ≠ [] then lines ++ [cur] else lines
  | w :: ws, lines, cur =>
      let testLine := stripChars (cur ++ ' ' :: w)
      if measure testLine ≤ targetWidth then
        wrapLatinMainGo measure targetWidth ws lines testLine
      else
        let lines2 := if cur ≠ [] then lines ++ [cur] else lines
        if measure w > targetWidth then
          let broken := breakLongWordWithHyphen measure targetWidth w
          wrapLatinMainGo measure targetWidth ws (lines2 ++ broken.dropLast)
            (broken.getLastD [])
        else
          wrapLatinMainGo measure targetWidth ws lines2 w

/-- The bottom-line post-pass of `_wrap_latin_text` (lines 203-210): a short
last word on a multi-word last line is promoted to its own trailing line; the
emptied previous line, were it blank, would be dropped. -/
def latinPostPass (lines : List (List Char)) : List (List Char) :=
  if lines.length > 1 then
    let lastLine := lines.getLastD []
    let ws := pySplit lastLine
    let lastWord := ws.getLastD []
    if lastWord.length ≤ 10 ∧ ' ' ∈ lastLine then
      if stripChars (joinSpace ws.dropLast) = [] then lines.dropLast ++ [lastWord]
      else lines.dropLast ++ [joinSpace ws.dropLast] ++ [lastWord]
    else lines
  else lines

/-- `FontManager._wrap_latin_text`. -/
def wrapLatinText (measure : List Char → Int) (text : List Char)
    (targetWidth : Int) : List (List Char) :=
  latinPostPass (wrapLatinMainGo measure targetWidth (pySplit text) [] [])

/-- `FontManager.wrap_text_for_size`: blank text wraps to nothing; CJK
languages wrap character-by-character, the rest word-by-word. -/
def wrapTextForSize (measure : List Char → Int) (text : List Char)
    (targetWidth : Int) (language : String) : List (List Char) :=
  if stripChars text = [] then []
  else if isCjkLanguage language then wrapCjkText measure text targetWidth
  else wrapLatinText measure text targetWidth

/-- The loop body of `find_optimal_font_size_multiline` for one candidate
size (lines 252-277): wrap at that size, reject if the optional line cap is
exceeded, else compare the total height — `len(lines) * line_height +
(len(lines) - 1) * line_spacing` — against the target height.  `measure`
abstracts `get_font(language, size)` + `measure_text` (PIL), giving
`(width, height)` per text at a size; `int(line_height * 0.4)` is exactly
`2 * line_height / 5` for nonnegative heights (the double nearest 0.4 is
slightly above 2/5 and the product truncates to the same integer). -/
def sizeFits (measure : Int → List Char → Nat × Nat) (text : List Char)
    (targetWidth targetHeight : Int) (language : String) (maxLines : Option Nat)
    (size : Int) : Bool :=
  let lines := wrapTextForSize (fun t => ((measure size t).1 : Int))
    text targetWidth language
  let maxExceeded : Bool := match maxLines with
    | some m => decide (m ≠ 0 ∧ lines.length > m)
    | none => false
  if maxExceeded then false
  else
    let lineHeight : Int := ((measure size
      (if isCjkLanguage language then ['测'] else ['A'])).2 : Int)
    let lineSpacing : Int := if isCjkLanguage language then
        max 8 (2 * lineHeight / 5)
      else max 5 (2 * lineHeight / 5)
    decide ((lines.length : Int) * lineHeight +
      ((lines.length : Int) - 1) * lineSpacing ≤ targetHeight)

/-- The `while left <= right` binary search of
`find_optimal_font_size_multiline`.  The interval shrinks strictly every
iteration, so the fuel supplied by `findOptimalFontSizeMultiline` (the
initial interval size) always covers the whole loop. -/
def fontSearchGo (fits : Int → Bool) : Nat → Int → Int → Int → Int
  | 0, _, _, best => best
  | fuel + 1, left, right, best =>
      if left ≤ right then
        let mid := (left + right) / 2
        if fits mid then fontSearchGo fits fuel (mid + 1) right mid
        else fontSearchGo fits fuel left (mid - 1) best
      else best

/-- `FontManager.find_optimal_font_size_multiline` with
`settings.font_size_min = 6` and `settings.font_size_max = 30`: `best_size`
starts at the original minimum (6) before the CJK floor raises `left` to 12,
and the binary search keeps the largest size that fits. -/
def findOptimalFontSizeMultiline (measure : Int → List Char → Nat × Nat)
    (text : List Char) (targetWidth targetHeight : Int) (language : String)
    (maxLines : Option Nat) : Int :=
  let left : Int := if isCjkLanguage language then max 6 12 else 6
  fontSearchGo (sizeFits measure text targetWidth targetHeight language maxLines)
    (30 + 1 - left).toNat left 30 6

/-! ## Theorems for claim C8 -/

theorem fontSearchGo_le_max (fits : Int → Bool) :
    ∀ (fuel : Nat) (left right best : Int),
      fontSearchGo fits fuel left right best ≤ max best right := by
  intro fuel
  induction fuel with
  | zero => intro l r b; exact le_max_left b r
  | succ fuel ih =>
      intro l r b
      simp only [fontSearchGo]
      by_cases hlr : l ≤ r
      · rw [if_pos hlr]
        have hmid : l ≤ (l + r) / 2 ∧ (l + r) / 2 ≤ r := by omega
        by_cases hfit : fits ((l + r) / 2) = true
        · rw [if_pos hfit]
          have := ih ((l + r) / 2 + 1) r ((l + r) / 2)
          have hmax : max ((l + r) / 2) r = r := max_eq_right hmid.2
          omega
        · rw [if_neg hfit]
          have := ih l ((l + r) / 2 - 1) b
          have : fontSearchGo fits fuel l ((l + r) / 2 - 1) b ≤
              max b ((l + r) / 2 - 1) := this
          rcases max_cases b ((l + r) / 2 - 1) with ⟨he, _⟩ | ⟨he, _⟩ <;>
            rcases max_cases b r with ⟨he2, _⟩ | ⟨he2, _⟩ <;> omega
      · rw [if_neg hlr]
        exact le_max_left b r

theorem fontSearchGo_ge_best (fits : Int → Bool) :
    ∀ (fuel : Nat) (left right best : Int), best ≤ left →
      best ≤ fontSearchGo fits fuel left right best := by
  intro fuel
  induction fuel with
  | zero => intro l r b _; exact le_refl b
  | succ fuel ih =>
      intro l r b hbl
      simp only [fontSearchGo]
      by_cases hlr : l ≤ r
      · rw [if_pos hlr]
        have hmid : l ≤ (l + r) / 2 ∧ (l + r) / 2 ≤ r := by omega
        by_cases hfit : fits ((l + r) / 2) = true
        · rw [if_pos hfit]
          have := ih ((l + r) / 2 + 1) r ((l + r) / 2) (by omega)
          omega
        · rw [if_neg hfit]
          exact ih l ((l + r) / 2 - 1) b hbl
      · rw [if_neg hlr]

/-- The binary search result is monotone in the fit predicate (pointwise
implication), given the invariant `best ≤ left` that all call sites keep. -/
theorem fontSearchGo_mono (p q : Int → Bool) (hpq : ∀ s, p s = true → q s = true) :
    ∀ (fuel : Nat) (left right bp bq : Int), bp ≤ bq → bq ≤ left →
      fontSearchGo p fuel left right bp ≤ fontSearchGo q fuel left right bq := by
  intro fuel
  induction fuel with
  | zero => intro l r bp bq hb _; exact hb
  | succ fuel ih =>
      intro l r bp bq hb hbl
      simp only [fontSearchGo]
      by_cases hlr : l ≤ r
      · rw [if_pos hlr, if_pos hlr]
        have hmid : l ≤ (l + r) / 2 ∧ (l + r) / 2 ≤ r := by omega
        by_cases hp : p ((l + r) / 2) = true
        · have hq : q ((l + r) / 2) = true := hpq _ hp
          rw [if_pos hp, if_pos hq]
          exact ih ((l + r) / 2 + 1) r ((l + r) / 2) ((l + r) / 2)
            (le_refl _) (by omega)
        · rw [if_neg hp]
          by_cases hq : q ((l + r) / 2) = true
          · rw [if_pos hq]
            have hup := fontSearchGo_le_max p fuel l ((l + r) / 2 - 1) bp
            have hlo := fontSearchGo_ge_best q fuel ((l + r) / 2 + 1) r
              ((l + r) / 2) (by omega)
            rcases max_cases bp ((l + r) / 2 - 1) with ⟨he, _⟩ | ⟨he, _⟩ <;> omega
          · rw [if_neg hq]
            exact ih l ((l + r) / 2 - 1) bp bq hb hbl
      · rw [if_neg hlr, if_neg hlr]
        exact hb

/-- C8, counterexample to the claim as stated: with a linear width/height
measurement, the 1000×1 box has the larger area (1000 > 900) but every size
overflows its 1-pixel height, so the search returns the minimum 6; the 30×30
box fits `"aaaa"` at size 10 — the chosen size is not monotone in box area. -/
theorem font_size_not_monotone_in_area :
    (1000 : Int) * 1 > 30 * 30 ∧
      findOptimalFontSizeMultiline (fun s t => (s.toNat * t.length, s.toNat))
          "aaaa".data 1000 1 "english" none <
        findOptimalFontSizeMultiline (fun s t => (s.toNat * t.length, s.toNat))
          "aaaa".data 30 30 "english" none := by
  constructor
  · decide
  · decide

/-- C8 (amended): for fixed text, language, measurement and box width, the
chosen font size is monotone in the box height — the binary search over a
pointwise-larger fit set never returns a smaller size.  (Monotonicity in the
box's area fails: a wider-but-flatter box of larger area can force the
minimum size, see the counterexample.) -/
theorem font_size_monotone_in_height (measure : Int → List Char → Nat × Nat)
    (text : List Char) (targetWidth hgt1 hgt2 : Int) (language : String)
    (maxLines : Option Nat) (hh : hgt1 ≤ hgt2) :
    findOptimalFontSizeMultiline measure text targetWidth hgt1 language maxLines ≤
      findOptimalFontSizeMultiline measure text targetWidth hgt2 language maxLines := by
  unfold findOptimalFontSizeMultiline
  apply fontSearchGo_mono
  · intro s hs
    simp only [sizeFits] at hs ⊢
    split at hs
    · exact absurd hs (by simp)
    · rename_i hcond
      rw [if_neg hcond]
      rw [decide_eq_true_eq] at hs ⊢
      omega
  · exact le_refl 6
  · by_cases hc : isCjkLanguage language = true
    · rw [if_pos hc]; omega
    · rw [if_neg hc]

/-- Witness for `font_size_monotone_in_height`: same 30-wide box, heights 30
and 60. -/
theorem font_size_monotone_in_height_witness :
    (30 : Int) ≤ 60 ∧
      findOptimalFontSizeMultiline (fun s t => (s.toNat * t.length, s.toNat))
          "aaaa".data 30 30 "english" none ≤
        findOptimalFontSizeMultiline (fun s t => (s.toNat * t.length, s.toNat))
          "aaaa".data 30 60 "english" none :=
  ⟨by decide, font_size_monotone_in_height (fun s t => (s.toNat * t.length, s.toNat))
    "aaaa".data 30 30 60 "english" none (by decide)⟩

end InkTranslator
